import Mathlib

/-!
Verification of `config_set.go` (package `config`).

A shallow embedding of `Config.Readonly`, `Config.Set`, `buildValueByPath` and
`sliceReverse`, followed by theorems about the path-resolution and merge behaviour
of `Set`.

Modelling conventions:

* a Go `string` is a list of Unicode code points (`Str`); the strings are assumed
  to be valid UTF-8;
* a Go `map[string]interface{}` is an association list read with `mapLookup`
  (first binding wins) and written with `mapAssign` (the binding is replaced where
  it stands, or appended); a `map[interface{}]interface{}` likewise, with scalars as
  keys;
* a Go `int` is a 64-bit integer: `Atoi` rejects what does not fit;
* the mutex is not modelled: one call of `Set` is one atomic step;
* a run-time panic (index out of range) is the outcome `Outcome.panic`;
* `Config.Set` works on stores that are trees of values, which describes the stores in
  which no slice or map is shared; `RConfig.SetRef` is the same method on stores whose
  maps and slices are references into a heap, and is the one used where sharing
  matters.
-/

namespace GoConfig

/-- A Go string, as the list of its code points. -/
abbrev Str := List Char

/-! ## Dynamic values -/

/-- Scalars that a decoder can put in the store (and use as keys of a
`map[interface{}]interface{}`). -/
inductive Scalar where
  | null
  | bool (b : Bool)
  | int (i : Int)
  | str (s : Str)
deriving DecidableEq

/-- A value of type `interface{}` as the type switch of `Set` sees it:
`map[string]interface{}`, `map[interface{}]interface{}`, `[]interface{}`, or
anything else. -/
inductive Value where
  | scalar (s : Scalar)
  | smap (m : List (Str × Value))
  | imap (m : List (Scalar × Value))
  | arr (xs : List Value)

/-- A string-keyed Go map. -/
abbrev SMap := List (Str × Value)

/-- The read `m[k]` with its `ok` flag. -/
def mapLookup (k : Str) : SMap → Option Value
  | [] => none
  | (k', v) :: rest => if k' = k then some v else mapLookup k rest

/-- The write `m[k] = v`. -/
def mapAssign (k : Str) (v : Value) : SMap → SMap
  | [] => [(k, v)]
  | (k', v') :: rest => if k' = k then (k, v) :: rest else (k', v') :: mapAssign k v rest

/-- Whether the value is a mapping of either kind. -/
def Value.isMapping : Value → Bool
  | .smap _ => true
  | .imap _ => true
  | _ => false

/-! ## The Go standard library functions used by `Set` -/

/-- The predicate `unicode.IsSpace`. -/
def isSpace (r : Char) : Bool :=
  let n := r.toNat
  n = 0x20 || (0x09 ≤ n && n ≤ 0x0D) || n = 0x85 || n = 0xA0 || n = 0x1680 ||
    (0x2000 ≤ n && n ≤ 0x200A) || n = 0x2028 || n = 0x2029 || n = 0x202F ||
    n = 0x205F || n = 0x3000

/-- Drop the longest prefix and the longest suffix whose characters satisfy `f`
(`strings.TrimFunc`). -/
def TrimFunc (s : Str) (f : Char → Bool) : Str :=
  ((s.dropWhile f).reverse.dropWhile f).reverse

/-- The function `strings.TrimSpace`. -/
def TrimSpace (s : Str) : Str := TrimFunc s isSpace

/-- The function `strings.Trim(s, cutset)`. -/
def Trim (s : Str) (cutset : Str) : Str := TrimFunc s (fun r => cutset.contains r)

/-- The function `strings.Contains(s, sep)` for a separator of one character (the only
call is `strings.Contains(key, ".")`). -/
def Contains (s : Str) (sep : Char) : Bool := s.contains sep

/-- The function `strings.Split(s, sep)` for a separator of one character (the only
call is `strings.Split(key, ".")`). -/
def Split : Str → Char → List Str
  | [], _ => [[]]
  | r :: rest, sep =>
    if r = sep then [] :: Split rest sep
    else
      match Split rest sep with
      | [] => [[r]]
      | seg :: segs => (r :: seg) :: segs

/-- The decimal value of a run of ASCII digits, most significant first (the loop of
`strconv.Atoi`). -/
def digitsValue (ds : Str) : Nat :=
  ds.foldl (fun n ch => n * 10 + (ch.toNat - 48)) 0

/-- The function `strconv.Atoi` on a 64-bit platform: an optional sign and at least one
ASCII digit, the value within the range of `int`; `none` stands for a non-nil error. -/
def Atoi (s : Str) : Option Int :=
  let neg := s.head? = some '-'
  let ds := if s.head? = some '-' ∨ s.head? = some '+' then s.tail else s
  if ds = [] then none
  else if ds.all Char.isDigit then
    let n := digitsValue ds
    if neg then (if n ≤ 2 ^ 63 then some (-(n : Int)) else none)
    else (if n < 2 ^ 63 then some (n : Int) else none)
  else none

/-- The digit loop of `strconv.FormatInt` in base 10: digits are produced from the least
significant one and pushed in front of `acc`. -/
def formatBits : Nat → Nat → Str → Str
  | 0, _, acc => acc
  | fuel + 1, u, acc =>
    if u < 10 then Char.ofNat (48 + u) :: acc
    else formatBits fuel (u / 10) (Char.ofNat (48 + u % 10) :: acc)

/-- The function `strconv.Itoa`. -/
def Itoa (i : Int) : Str :=
  if i < 0 then '-' :: formatBits (i.natAbs + 1) i.natAbs []
  else formatBits (i.natAbs + 1) i.natAbs []

/-- The call `fmt.Sprintf("%v", k)` on a scalar. -/
def Sprintf : Scalar → Str
  | .null => "<nil>".toList
  | .bool true => "true".toList
  | .bool false => "false".toList
  | .int i => Itoa i
  | .str s => s

/-! ## The store -/

/-- Modelled from the spec: the options of a `Config`, declared outside
`config_set.go`; only the readonly flag is used here. -/
structure Options where
  Readonly : Bool

/-- Modelled from the spec: the type `Config`, declared outside `config_set.go`: its
options and its data, a mapping from string keys to dynamic values (the lock is left
out). -/
structure Config where
  opts : Options
  data : SMap

/-- The errors that `Set` returns. -/
inductive SetError where
  | readonly
  | emptyKey
  | arrayDepth (key : Str)
  | unsupportedType (key : Str)
  | merge (cause : Str)
deriving DecidableEq

/-- The message of an error, as passed to `errors.New`. -/
def SetError.Error : SetError → Str
  | .readonly => "the config instance in 'readonly' mode".toList
  | .emptyKey => "the config key is cannot be empty".toList
  | .arrayDepth key => "max allow 1 level for setting array value, current key: ".toList ++ key
  | .unsupportedType key =>
    "not supported value type, cannot setting value for the key: ".toList ++ key
  | .merge cause => cause

/-- How a call ends: it returns (with or without an error) leaving a store, or it
panics. -/
inductive Outcome where
  | returned (err : Option SetError) (c : Config)
  | panic

/-! ## `Readonly`, `sliceReverse`, `buildValueByPath` -/

/-- The method `Readonly`: `c.opts.Readonly = true`. -/
def Config.Readonly (c : Config) : Config :=
  { c with opts := { c.opts with Readonly := true } }

/-- The assignment `ss[i], ss[li] = ss[li], ss[i]`. -/
def swapAt (ss : List Str) (i li : Nat) : List Str :=
  match ss[i]?, ss[li]? with
  | some a, some b => (ss.set i b).set li a
  | _, _ => ss

/-- The function `sliceReverse`: `for i := 0; i < int(ln/2); i++` swapping `ss[i]` and
`ss[ln-i-1]`. -/
def sliceReverse (ss : List Str) : List Str :=
  let ln := ss.length
  (List.range (ln / 2)).foldl (fun ss i => swapAt ss i (ln - i - 1)) ss

/-- The function `buildValueByPath`; the loop variable `newItem` starts as the nil map
(`none`), and a nil result is the empty map. -/
def buildValueByPath (paths : List Str) (val : Value) : SMap :=
  match paths with
  | [p] => [(p, val)]
  | _ =>
    let paths := sliceReverse paths
    let newItem : Option SMap := paths.foldl
      (fun newItem p =>
        match newItem with
        | none => some [(p, val)]
        | some m => some [(p, Value.smap m)])
      none
    newItem.getD []

/-! ## Deep merge -/

/-- An arbitrary-keyed Go map. -/
abbrev IMap := List (Scalar × Value)

/-- The read `m[k]` on an arbitrary-keyed map. -/
def imapLookup (k : Scalar) : IMap → Option Value
  | [] => none
  | (k', v) :: rest => if k' = k then some v else imapLookup k rest

/-- The write `m[k] = v` on an arbitrary-keyed map. -/
def imapAssign (k : Scalar) (v : Value) : IMap → IMap
  | [] => [(k, v)]
  | (k', v') :: rest => if k' = k then (k, v) :: rest else (k', v') :: imapAssign k v rest

/-- A string-keyed map read with arbitrary keys: the key `k` becomes the key `k` of
dynamic type string. -/
def promoteKeys (m : SMap) : IMap := m.map (fun kv => (Scalar.str kv.1, kv.2))

mutual
/-- Modelled from the spec: `mergo.Merge(&dst, src, mergo.WithOverride)`, a library that
is not part of the source file. For each key of the source the merged value of that key
is written into the destination; the other keys of the destination stay. -/
def deepMerge (dst : SMap) : SMap → SMap
  | [] => dst
  | (k, sv) :: rest => deepMerge (mapAssign k (mergeValue (mapLookup k dst) sv) dst) rest
/-- Modelled from the spec: the same merge of a string-keyed source into an
arbitrary-keyed destination; the source key `k` is the key `k` of dynamic type string. -/
def deepMergeIntoIMap (dst : IMap) : SMap → IMap
  | [] => dst
  | (k, sv) :: rest =>
    deepMergeIntoIMap
      (imapAssign (.str k) (mergeValue (imapLookup (.str k) dst) sv) dst) rest
/-- Modelled from the spec: the same merge of an arbitrary-keyed source into an
arbitrary-keyed destination. -/
def deepMergeIMap (dst : IMap) : IMap → IMap
  | [] => dst
  | (k, sv) :: rest => deepMergeIMap (imapAssign k (mergeValue (imapLookup k dst) sv) dst) rest
/-- Modelled from the spec: the value that the merge leaves at a key: when both the
destination and the source hold a mapping there (string-keyed or arbitrary-keyed), their
recursive merge; otherwise the source value. The merged mapping is string-keyed when both
are; when one of them is arbitrary-keyed the merge is done on arbitrary keys. -/
def mergeValue (d : Option Value) : Value → Value
  | .smap sm =>
    match d with
    | some (.smap dm) => .smap (deepMerge dm sm)
    | some (.imap dm) => .imap (deepMergeIntoIMap dm sm)
    | _ => .smap sm
  | .imap sm =>
    match d with
    | some (.smap dm) => .imap (deepMergeIMap (promoteKeys dm) sm)
    | some (.imap dm) => .imap (deepMergeIMap dm sm)
    | _ => .imap sm
  | v => v
end

/-- Modelled from the spec: the result of `mergo.Merge` with its error; the spec names no
condition under which merging two string-keyed mappings fails. -/
def mergoMerge (dst src : SMap) : Except Str SMap := .ok (deepMerge dst src)

/-! ## `Set` -/

/-- The test `len(setByPath) > 0 && !setByPath[0]`. -/
def pathDisabled (setByPath : List Bool) : Bool :=
  match setByPath with
  | b :: _ => !b
  | [] => false

/-- The copy loop of the `map[interface{}]interface{}` case:
`dstItem[fmt.Sprintf("%v", k)] = v` for each entry. -/
def stringifyKeys (typeData : List (Scalar × Value)) : SMap :=
  typeData.foldl (fun dstItem kv => mapAssign (Sprintf kv.1) kv.2 dstItem) []

/-- The method `Set`, on stores that are trees of values: the write in place of line 94
and the merge in place of line 84 are rendered as a new sequence or mapping stored under
the top key, which is what the stored object then holds; what another holder of the same
object sees is the matter of `RConfig.SetRef`. -/
def Config.Set (c : Config) (key : Str) (val : Value) (setByPath : List Bool) : Outcome :=
  if c.opts.Readonly then .returned (some .readonly) c
  else
    let key := Trim (TrimSpace key) ".".toList
    if key = [] then .returned (some .emptyKey) c
    else if !Contains key '.' then .returned none { c with data := mapAssign key val c.data }
    else if pathDisabled setByPath then
      .returned none { c with data := mapAssign key val c.data }
    else
      match Split key '.' with
      -- `keys[0]` on an empty slice; `Split` never returns one
      | [] => .panic
      | topK :: paths =>
        match mapLookup topK c.data with
        | none =>
          .returned none
            { c with data := mapAssign topK (.smap (buildValueByPath paths val)) c.data }
        | some (.imap typeData) =>
          let dstItem := stringifyKeys typeData
          let newItem := buildValueByPath paths val
          match mergoMerge dstItem newItem with
          | .error e => .returned (some (.merge e)) c
          | .ok merged => .returned none { c with data := mapAssign topK (.smap merged) c.data }
        | some (.smap typeData) =>
          let newItem := buildValueByPath paths val
          match mergoMerge typeData newItem with
          | .error e => .returned (some (.merge e)) c
          | .ok merged => .returned none { c with data := mapAssign topK (.smap merged) c.data }
        | some (.arr typeData) =>
          match paths with
          -- `keys[1]` out of range; the key contains a dot, so this is not reached
          | [] => .panic
          | k1 :: _ =>
            match Atoi k1 with
            | some index =>
              if (topK :: paths).length = 2 then
                if index ≤ (typeData.length : Int) then
                  -- `typeData[index] = val` panics unless `0 <= index < len(typeData)`
                  if 0 ≤ index ∧ index < (typeData.length : Int) then
                    .returned none
                      { c with data := mapAssign topK (.arr (typeData.set index.toNat val)) c.data }
                  else .panic
                else .returned none { c with data := mapAssign topK (.arr typeData) c.data }
              else .returned (some (.arrayDepth key)) c
            | none => .returned (some (.arrayDepth key)) c
        | some (.scalar _) => .returned (some (.unsupportedType key)) c

/-- The operations of this file on a store. -/
inductive Op where
  | Readonly
  | Set (key : Str) (val : Value) (setByPath : List Bool)

/-- One operation applied to a store. -/
def Config.apply (c : Config) : Op → Outcome
  | .Readonly => .returned none c.Readonly
  | .Set key val setByPath => c.Set key val setByPath

/-- A sequence of operations applied in order; `none` when one of them panics. -/
def Config.run (c : Config) : List Op → Option Config
  | [] => some c
  | op :: ops =>
    match c.apply op with
    | .returned _ c' => c'.run ops
    | .panic => none

/-! ## Notions used to state the properties -/

/-- The right-nested chain of single-entry mappings `{s1: {s2: … {sn: v}}}`; the value
itself for the empty path. -/
def nested : List Str → Value → Value
  | [], v => v
  | s :: rest, v => .smap [(s, nested rest v)]

/-- Follow a path of keys through nested string-keyed mappings. -/
def getPath : Value → List Str → Option Value
  | v, [] => some v
  | v, k :: rest =>
    match v with
    | .smap m =>
      match mapLookup k m with
      | some w => getPath w rest
      | none => none
    | _ => none

/-- The top-level key that a call of `Set` writes: the whole normalized key on the literal
route (no dot, or path semantics disabled), its first segment otherwise. -/
def writtenKey (key : Str) (setByPath : List Bool) : Str :=
  let k := Trim (TrimSpace key) ".".toList
  if Contains k '.' && !pathDisabled setByPath then (Split k '.').headD k else k

/-- Follow a path of keys through nested mappings of either kind; in a string-keyed
mapping only a key of dynamic type string is found. -/
def getAt : Value → List Scalar → Option Value
  | v, [] => some v
  | v, k :: rest =>
    match v with
    | .smap m =>
      match k with
      | .str s =>
        match mapLookup s m with
        | some w => getAt w rest
        | none => none
      | _ => none
    | .imap m =>
      match imapLookup k m with
      | some w => getAt w rest
      | none => none
    | _ => none

/-- The segments of a path as keys of dynamic type string. -/
def strKeys (p : List Str) : List Scalar := p.map Scalar.str

mutual
/-- Whether the mappings of a value that a merge can reach (the value itself and, through
mappings, its entries) hold no key twice, as Go maps do. -/
def Value.keysDistinct : Value → Bool
  | .smap m => decide ((m.map Prod.fst).Nodup) && entriesKeysDistinct m
  | .imap m => decide ((m.map Prod.fst).Nodup) && ientriesKeysDistinct m
  | _ => true
/-- Whether every value of the entries satisfies `Value.keysDistinct`. -/
def entriesKeysDistinct : List (Str × Value) → Bool
  | [] => true
  | (_, v) :: rest => v.keysDistinct && entriesKeysDistinct rest
/-- Whether every value of the entries satisfies `Value.keysDistinct`. -/
def ientriesKeysDistinct : List (Scalar × Value) → Bool
  | [] => true
  | (_, v) :: rest => v.keysDistinct && ientriesKeysDistinct rest
end

/-! ## Stores with shared slices and maps

In Go a map or a slice stored in the store is a reference: two entries, or an entry and
a value of the caller, can hold the same object, and a write in place to the object is
seen through each of them. The definitions above describe stores as trees of values,
which is exact as long as no object is shared; the definitions below keep the objects in
a heap and the references in the store. -/

/-- A value of type `interface{}` with Go's reference semantics: a map or a slice is the
address of an object of the heap. A slice is taken to span its whole backing array. -/
inductive RVal where
  | scalar (s : Scalar)
  | smapRef (addr : Nat)
  | imapRef (addr : Nat)
  | sliceRef (addr : Nat)

/-- An object of the heap: the entries of a `map[string]interface{}`, the entries of a
`map[interface{}]interface{}`, or the backing array of a `[]interface{}`. -/
inductive Obj where
  | smap (m : List (Str × RVal))
  | imap (m : List (Scalar × RVal))
  | arr (xs : List RVal)

/-- The heap: the object of address `a` is the element of index `a`; allocation appends. -/
abbrev Heap := List Obj

/-- Modelled from the spec: the type `Config`, declared outside `config_set.go`, with the
heap that its values point into. -/
structure RConfig where
  opts : Options
  data : List (Str × RVal)
  heap : Heap

/-- How a call on a store with references ends. -/
inductive ROutcome where
  | returned (err : Option SetError) (c : RConfig)
  | panic

/-- The read `m[k]` with its `ok` flag, on a map of references. -/
def refLookup (k : Str) : List (Str × RVal) → Option RVal
  | [] => none
  | (k', v) :: rest => if k' = k then some v else refLookup k rest

/-- The write `m[k] = v`, on a map of references. -/
def refAssign (k : Str) (v : RVal) : List (Str × RVal) → List (Str × RVal)
  | [] => [(k, v)]
  | (k', v') :: rest => if k' = k then (k, v) :: rest else (k', v') :: refAssign k v rest

/-- The function `buildValueByPath` with its allocations: each map literal of the loop is
a new object of the heap; the result is the heap and the reference to the outermost
map (a new empty map stands for the nil map of an empty path). -/
def buildValueByPathRef (heap : Heap) (paths : List Str) (val : RVal) : Heap × RVal :=
  match paths with
  | [p] => (heap ++ [.smap [(p, val)]], .smapRef heap.length)
  | _ =>
    let paths := sliceReverse paths
    let built : Heap × Option Nat := paths.foldl
      (fun st p =>
        match st.2 with
        | none => (st.1 ++ [.smap [(p, val)]], some st.1.length)
        | some a => (st.1 ++ [.smap [(p, RVal.smapRef a)]], some st.1.length))
      (heap, none)
    match built.2 with
    | some a => (built.1, .smapRef a)
    | none => (built.1 ++ [.smap []], .smapRef built.1.length)

/-- The copy loop of the `map[interface{}]interface{}` case on references:
`dstItem[fmt.Sprintf("%v", k)] = v` for each entry. -/
def stringifyKeysRef (typeData : List (Scalar × RVal)) : List (Str × RVal) :=
  typeData.foldl (fun dstItem kv => refAssign (Sprintf kv.1) kv.2 dstItem) []

/-- The call `mergo.Merge(&typeData, newItem, mergo.WithOverride)` of a library that is
not part of the source file, as a parameter of `SetRef`: from the heap, the value of
`typeData` and `newItem`, it gives the heap after the call, the value of `typeData` after
the call, and the error if any. -/
abbrev MergeRef := Heap → RVal → RVal → Heap × RVal × Option Str

/-- The method `Set` on a store with references: the assignment `typeData[index] = val`
writes into the backing array that the stored slice points to, and the merge works on the
map that the stored reference points to. A reference to no object of its kind makes the
call panic. -/
def RConfig.SetRef (merge : MergeRef) (c : RConfig) (key : Str) (val : RVal)
    (setByPath : List Bool) : ROutcome :=
  if c.opts.Readonly then .returned (some .readonly) c
  else
    let key := Trim (TrimSpace key) ".".toList
    if key = [] then .returned (some .emptyKey) c
    else if !Contains key '.' then .returned none { c with data := refAssign key val c.data }
    else if pathDisabled setByPath then
      .returned none { c with data := refAssign key val c.data }
    else
      match Split key '.' with
      | [] => .panic
      | topK :: paths =>
        match refLookup topK c.data with
        | none =>
          let built := buildValueByPathRef c.heap paths val
          .returned none { c with data := refAssign topK built.2 c.data, heap := built.1 }
        | some (.imapRef a) =>
          match c.heap[a]? with
          | some (.imap typeData) =>
            let dstItem := RVal.smapRef c.heap.length
            let heap1 := c.heap ++ [.smap (stringifyKeysRef typeData)]
            let built := buildValueByPathRef heap1 paths val
            let merged := merge built.1 dstItem built.2
            match merged.2.2 with
            | some e => .returned (some (.merge e)) { c with heap := merged.1 }
            | none =>
              .returned none { c with data := refAssign topK merged.2.1 c.data, heap := merged.1 }
          | _ => .panic
        | some (.smapRef a) =>
          let built := buildValueByPathRef c.heap paths val
          let merged := merge built.1 (.smapRef a) built.2
          match merged.2.2 with
          | some e => .returned (some (.merge e)) { c with heap := merged.1 }
          | none =>
            .returned none { c with data := refAssign topK merged.2.1 c.data, heap := merged.1 }
        | some (.sliceRef a) =>
          match c.heap[a]? with
          | some (.arr typeData) =>
            match paths with
            | [] => .panic
            | k1 :: _ =>
              match Atoi k1 with
              | some index =>
                if (topK :: paths).length = 2 then
                  if index ≤ (typeData.length : Int) then
                    -- `typeData[index] = val` panics unless `0 <= index < len(typeData)`
                    if 0 ≤ index ∧ index < (typeData.length : Int) then
                      .returned none
                        { c with
                          data := refAssign topK (.sliceRef a) c.data,
                          heap := c.heap.set a (.arr (typeData.set index.toNat val)) }
                    else .panic
                  else .returned none { c with data := refAssign topK (.sliceRef a) c.data }
                else .returned (some (.arrayDepth key)) c
              | none => .returned (some (.arrayDepth key)) c
          | _ => .panic
        | some (.scalar _) => .returned (some (.unsupportedType key)) c

/-- The elements of the sequence stored under a top-level key. -/
def RConfig.elems (c : RConfig) (k : Str) : Option (List RVal) :=
  match refLookup k c.data with
  | some (.sliceRef a) =>
    match c.heap[a]? with
    | some (.arr xs) => some xs
    | _ => none
  | _ => none

/-! ## Lemmas and theorems -/

theorem mapLookup_mapAssign_self (k : Str) (v : Value) (m : SMap) :
    mapLookup k (mapAssign k v m) = some v := by
  induction m with
  | nil => simp [mapAssign, mapLookup]
  | cons kv rest ih =>
    obtain ⟨k', v'⟩ := kv
    by_cases h : k' = k
    · simp [mapAssign, mapLookup, h]
    · simp [mapAssign, mapLookup, h, ih]

theorem mapLookup_mapAssign_ne (k k' : Str) (v : Value) (m : SMap) (h : k' ≠ k) :
    mapLookup k' (mapAssign k v m) = mapLookup k' m := by
  induction m with
  | nil => simp [mapAssign, mapLookup, Ne.symm h]
  | cons kv rest ih =>
    obtain ⟨k2, v2⟩ := kv
    by_cases h2 : k2 = k
    · subst h2
      simp [mapAssign, mapLookup, Ne.symm h]
    · by_cases h3 : k2 = k'
      · subst h3
        simp [mapAssign, mapLookup, h2]
      · simp [mapAssign, mapLookup, h2, h3, ih]

theorem Split_ne_nil (s : Str) (sep : Char) : Split s sep ≠ [] := by
  induction s with
  | nil => simp [Split]
  | cons r rest ih =>
    unfold Split
    split
    · simp
    · split <;> simp

theorem Split_of_not_Contains (s : Str) (sep : Char) (h : Contains s sep = false) :
    Split s sep = [s] := by
  induction s with
  | nil => simp [Split]
  | cons r rest ih =>
    simp only [Contains, List.contains_cons, Bool.or_eq_false_iff, beq_eq_false_iff_ne] at h
    have hr : r ≠ sep := fun e => h.1 e.symm
    have := ih (by simpa [Contains] using h.2)
    simp [Split, hr, this]

/-- A key that splits into a top key and a non-empty tail is non-empty and contains the
separator. -/
theorem Contains_of_Split (s : Str) (sep : Char) (t : Str) (p : List Str)
    (h : Split s sep = t :: p) (hp : p ≠ []) : s ≠ [] ∧ Contains s sep = true := by
  constructor
  · rintro rfl
    simp [Split] at h
    exact hp h.2
  · by_contra hc
    have hc' : Contains s sep = false := by simpa using hc
    rw [Split_of_not_Contains s sep hc'] at h
    simp at h
    exact hp h.2

theorem swapAt_length (ss : List Str) (i li : Nat) : (swapAt ss i li).length = ss.length := by
  unfold swapAt
  split <;> simp

theorem sliceReverse_aux (ss : List Str) (k : Nat) (hk : k ≤ ss.length / 2) :
    ((List.range k).foldl (fun l i => swapAt l i (ss.length - i - 1)) ss).length = ss.length ∧
    ∀ j, j < ss.length →
      ((List.range k).foldl (fun l i => swapAt l i (ss.length - i - 1)) ss)[j]? =
        if j < k ∨ ss.length - k ≤ j then ss[ss.length - 1 - j]? else ss[j]? := by
  induction k with
  | zero =>
    refine ⟨by simp, ?_⟩
    intro j hj
    have : ¬ (ss.length ≤ j) := by omega
    simp [this]
  | succ k ih =>
    obtain ⟨hlen, hget⟩ := ih (by omega)
    rw [List.range_succ, List.foldl_append]
    simp only [List.foldl_cons, List.foldl_nil]
    set L := (List.range k).foldl (fun l i => swapAt l i (ss.length - i - 1)) ss with hL
    have h1 : k < ss.length := by omega
    have h2 : ss.length - k - 1 < ss.length := by omega
    have hk1 : L[k]? = ss[k]? := by
      rw [hget k h1]
      have : ¬ (k < k ∨ ss.length - k ≤ k) := by omega
      rw [if_neg this]
    have hk2 : L[ss.length - k - 1]? = ss[ss.length - k - 1]? := by
      rw [hget _ h2]
      have : ¬ (ss.length - k - 1 < k ∨ ss.length - k ≤ ss.length - k - 1) := by omega
      rw [if_neg this]
    have e1 : ss[k]? = some ss[k] := List.getElem?_eq_getElem h1
    have e2 : ss[ss.length - k - 1]? = some ss[ss.length - k - 1] := List.getElem?_eq_getElem h2
    have hsw : swapAt L k (ss.length - k - 1) =
        (L.set k ss[ss.length - k - 1]).set (ss.length - k - 1) ss[k] := by
      unfold swapAt
      rw [hk1, hk2, e1, e2]
    rw [hsw]
    refine ⟨by simp [hlen], ?_⟩
    intro j hj
    rw [List.getElem?_set, List.getElem?_set]
    simp only [List.length_set, hlen]
    by_cases c1 : ss.length - k - 1 = j
    · subst c1
      have : (ss.length - k - 1 < k + 1 ∨ ss.length - (k + 1) ≤ ss.length - k - 1) := by omega
      simp only [this, if_true, h2]
      have e : ss.length - 1 - (ss.length - k - 1) = k := by omega
      rw [e, e1]
    · by_cases c2 : k = j
      · subst c2
        have : (k < k + 1 ∨ ss.length - (k + 1) ≤ k) := by omega
        simp only [c1, this, if_true, if_false, h1]
        have e : ss.length - 1 - k = ss.length - k - 1 := by omega
        rw [e, e2]
      · simp only [c1, c2, if_false]
        rw [hget j hj]
        have : (j < k ∨ ss.length - k ≤ j) ↔ (j < k + 1 ∨ ss.length - (k + 1) ≤ j) := by omega
        simp only [this]

/-- The swapping loop reverses the slice. -/
theorem sliceReverse_eq_reverse (ss : List Str) : sliceReverse ss = ss.reverse := by
  obtain ⟨hlen, hget⟩ := sliceReverse_aux ss (ss.length / 2) (le_refl _)
  apply List.ext_getElem?
  intro j
  unfold sliceReverse
  by_cases hj : j < ss.length
  · rw [hget j hj, List.getElem?_reverse hj]
    by_cases c : j < ss.length / 2 ∨ ss.length - ss.length / 2 ≤ j
    · rw [if_pos c]
    · rw [if_neg c]
      have e : ss.length - 1 - j = j := by omega
      rw [e]
  · rw [List.getElem?_eq_none (by simp only [hlen]; omega),
      List.getElem?_eq_none (by simp only [List.length_reverse]; omega)]

theorem foldr_wrap (val : Value) (l : List Str) :
    l.foldr (fun p (newItem : Option SMap) =>
        match newItem with
        | none => some [(p, val)]
        | some m => some [(p, Value.smap m)]) none =
      match l with
      | [] => none
      | s :: r => some [(s, nested r val)] := by
  induction l with
  | nil => rfl
  | cons s r ih =>
    rw [List.foldr_cons, ih]
    cases r with
    | nil => rfl
    | cons s2 r2 => rfl

/-- The map that `buildValueByPath` returns for a non-empty path has the single key `s1`,
bound to the chain of the remaining segments. -/
theorem buildValueByPath_cons (s : Str) (r : List Str) (val : Value) :
    buildValueByPath (s :: r) val = [(s, nested r val)] := by
  cases r with
  | nil => rfl
  | cons s2 r2 =>
    unfold buildValueByPath
    simp only [sliceReverse_eq_reverse, List.foldl_reverse]
    rw [foldr_wrap]
    rfl

theorem Set_fresh (c : Config) (key t : Str) (p : List Str) (val : Value)
    (setByPath : List Bool) (hro : c.opts.Readonly = false)
    (hkey : Split (Trim (TrimSpace key) ".".toList) '.' = t :: p) (hp : p ≠ [])
    (hflag : pathDisabled setByPath = false) (hfresh : mapLookup t c.data = none) :
    c.Set key val setByPath =
      .returned none { c with data := mapAssign t (.smap (buildValueByPath p val)) c.data } := by
  obtain ⟨hne, hc⟩ := Contains_of_Split _ _ _ _ hkey hp
  unfold Config.Set
  simp only [hro, hne, hc, hflag, hkey, hfresh]
  simp

theorem Set_smap (c : Config) (key t : Str) (p : List Str) (val : Value)
    (setByPath : List Bool) (m : SMap) (hro : c.opts.Readonly = false)
    (hkey : Split (Trim (TrimSpace key) ".".toList) '.' = t :: p) (hp : p ≠ [])
    (hflag : pathDisabled setByPath = false) (hm : mapLookup t c.data = some (.smap m)) :
    c.Set key val setByPath =
      .returned none
        { c with data := mapAssign t (.smap (deepMerge m (buildValueByPath p val))) c.data } := by
  obtain ⟨hne, hc⟩ := Contains_of_Split _ _ _ _ hkey hp
  unfold Config.Set
  simp only [hro, hne, hc, hflag, hkey, hm, mergoMerge]
  simp

theorem Set_arr (c : Config) (key t k1 : Str) (p : List Str) (val : Value)
    (setByPath : List Bool) (xs : List Value) (hro : c.opts.Readonly = false)
    (hkey : Split (Trim (TrimSpace key) ".".toList) '.' = t :: k1 :: p)
    (hflag : pathDisabled setByPath = false) (hm : mapLookup t c.data = some (.arr xs)) :
    c.Set key val setByPath =
      match Atoi k1 with
      | some index =>
        if p = [] then
          if index ≤ (xs.length : Int) then
            if 0 ≤ index ∧ index < (xs.length : Int) then
              .returned none { c with data := mapAssign t (.arr (xs.set index.toNat val)) c.data }
            else .panic
          else .returned none { c with data := mapAssign t (.arr xs) c.data }
        else .returned (some (.arrayDepth (Trim (TrimSpace key) ".".toList))) c
      | none => .returned (some (.arrayDepth (Trim (TrimSpace key) ".".toList))) c := by
  obtain ⟨hne, hc⟩ := Contains_of_Split _ _ _ _ hkey (by simp)
  unfold Config.Set
  simp only [hro, hne, hc, hflag, hkey, hm]
  cases hA : Atoi k1 with
  | none => simp
  | some index =>
    cases p with
    | nil => simp
    | cons a b => simp

/-- C1: on a store that is not readonly and has no entry for the top key `t`, `Set` with
path semantics enabled on a key that splits into `t` and a tail path `p` of one or more
segments returns without error, and the entry for `t` is then exactly the right-nested
chain of single-entry mappings `{s1: {s2: … {sn: val}}}`; nothing else of the store
changes. -/
theorem Set_fresh_top_key_builds_chain (c : Config) (key t : Str) (p : List Str)
    (val : Value) (setByPath : List Bool) (hro : c.opts.Readonly = false)
    (hkey : Split (Trim (TrimSpace key) ".".toList) '.' = t :: p) (hp : p ≠ [])
    (hflag : pathDisabled setByPath = false) (hfresh : mapLookup t c.data = none) :
    c.Set key val setByPath =
        .returned none { c with data := mapAssign t (nested p val) c.data } ∧
      mapLookup t (mapAssign t (nested p val) c.data) = some (nested p val) := by
  refine ⟨?_, mapLookup_mapAssign_self _ _ _⟩
  rw [Set_fresh c key t p val setByPath hro hkey hp hflag hfresh]
  cases p with
  | nil => exact absurd rfl hp
  | cons s r => rw [buildValueByPath_cons]; rfl

/-- Witness for C1: `Set("a.b.c", 1)` on the empty store yields `{a: {b: {c: 1}}}`. -/
theorem Set_fresh_top_key_builds_chain_witness :
    (Config.mk ⟨false⟩ []).Set "a.b.c".toList (.scalar (.int 1)) [] =
      .returned none ⟨⟨false⟩, [("a".toList, .smap [("b".toList,
        .smap [("c".toList, .scalar (.int 1))])])]⟩ :=
  (Set_fresh_top_key_builds_chain ⟨⟨false⟩, []⟩ "a.b.c".toList "a".toList
    ["b".toList, "c".toList] (.scalar (.int 1)) [] rfl rfl (by simp) rfl rfl).1

theorem imapLookup_imapAssign_self (k : Scalar) (v : Value) (m : IMap) :
    imapLookup k (imapAssign k v m) = some v := by
  induction m with
  | nil => simp [imapAssign, imapLookup]
  | cons kv rest ih =>
    obtain ⟨k', v'⟩ := kv
    by_cases h : k' = k
    · simp [imapAssign, imapLookup, h]
    · simp [imapAssign, imapLookup, h, ih]

theorem imapLookup_imapAssign_ne (k k' : Scalar) (v : Value) (m : IMap) (h : k' ≠ k) :
    imapLookup k' (imapAssign k v m) = imapLookup k' m := by
  induction m with
  | nil => simp [imapAssign, imapLookup, Ne.symm h]
  | cons kv rest ih =>
    obtain ⟨k2, v2⟩ := kv
    by_cases h2 : k2 = k
    · subst h2
      simp [imapAssign, imapLookup, Ne.symm h]
    · by_cases h3 : k2 = k'
      · subst h3
        simp [imapAssign, imapLookup, h2]
      · simp [imapAssign, imapLookup, h2, h3, ih]

theorem deepMerge_single (m : SMap) (k : Str) (x : Value) :
    deepMerge m [(k, x)] = mapAssign k (mergeValue (mapLookup k m) x) m := by
  simp [deepMerge]

theorem deepMergeIntoIMap_single (m : IMap) (k : Str) (x : Value) :
    deepMergeIntoIMap m [(k, x)] =
      imapAssign (.str k) (mergeValue (imapLookup (.str k) m) x) m := by
  simp [deepMergeIntoIMap]

theorem mergeValue_smap_smap (dm sm : SMap) :
    mergeValue (some (.smap dm)) (.smap sm) = .smap (deepMerge dm sm) := by
  simp [mergeValue]

theorem mergeValue_imap_smap (dm : IMap) (sm : SMap) :
    mergeValue (some (.imap dm)) (.smap sm) = .imap (deepMergeIntoIMap dm sm) := by
  simp [mergeValue]

theorem mergeValue_smap_imap (dm : SMap) (sm : IMap) :
    mergeValue (some (.smap dm)) (.imap sm) = .imap (deepMergeIMap (promoteKeys dm) sm) := by
  simp [mergeValue]

theorem mergeValue_imap_imap (dm sm : IMap) :
    mergeValue (some (.imap dm)) (.imap sm) = .imap (deepMergeIMap dm sm) := by
  simp [mergeValue]

theorem mergeValue_of_dst_not_mapping (d : Option Value) (x : Value)
    (h : ∀ w, d = some w → w.isMapping = false) : mergeValue d x = x := by
  cases d with
  | none => cases x <;> simp [mergeValue]
  | some w =>
    have hw := h w rfl
    cases w with
    | smap dm => simp [Value.isMapping] at hw
    | imap dm => simp [Value.isMapping] at hw
    | scalar s => cases x <;> simp [mergeValue]
    | arr xs => cases x <;> simp [mergeValue]

theorem mergeValue_of_src_not_mapping (d : Option Value) (x : Value)
    (h : x.isMapping = false) : mergeValue d x = x := by
  cases x with
  | smap sm => simp [Value.isMapping] at h
  | imap sm => simp [Value.isMapping] at h
  | scalar s => simp [mergeValue]
  | arr xs => simp [mergeValue]

theorem getPath_smap_cons (m : SMap) (k : Str) (rest : List Str) :
    getPath (.smap m) (k :: rest) =
      match mapLookup k m with
      | some w => getPath w rest
      | none => none := by
  simp [getPath]

theorem getPath_cons_of_not_smap (w : Value) (k : Str) (rest : List Str)
    (h : ∀ dm, w ≠ .smap dm) : getPath w (k :: rest) = none := by
  cases w with
  | smap dm => exact absurd rfl (h dm)
  | scalar s => simp [getPath]
  | imap im => simp [getPath]
  | arr xs => simp [getPath]

theorem mapLookup_single (s k : Str) (x : Value) :
    mapLookup k [(s, x)] = if s = k then some x else none := by
  simp [mapLookup]

theorem getAt_nil (v : Value) : getAt v [] = some v := rfl

theorem getAt_smap_str (m : SMap) (s : Str) (rest : List Scalar) :
    getAt (.smap m) (.str s :: rest) = (mapLookup s m).bind (fun w => getAt w rest) := by
  cases h : mapLookup s m <;> simp [getAt, h]

theorem getAt_smap_not_str (m : SMap) (k : Scalar) (rest : List Scalar)
    (h : ∀ s, k ≠ .str s) : getAt (.smap m) (k :: rest) = none := by
  cases k with
  | str s => exact absurd rfl (h s)
  | null => simp [getAt]
  | bool b => simp [getAt]
  | int i => simp [getAt]

theorem getAt_imap_cons (m : IMap) (k : Scalar) (rest : List Scalar) :
    getAt (.imap m) (k :: rest) = (imapLookup k m).bind (fun w => getAt w rest) := by
  cases h : imapLookup k m <;> simp [getAt, h]

theorem getAt_cons_of_not_mapping (w : Value) (k : Scalar) (rest : List Scalar)
    (h : w.isMapping = false) : getAt w (k :: rest) = none := by
  cases w with
  | smap dm => simp [Value.isMapping] at h
  | imap dm => simp [Value.isMapping] at h
  | scalar s => simp [getAt]
  | arr xs => simp [getAt]

theorem nested_cons_isMapping (s : Str) (r : List Str) (val : Value) :
    (nested (s :: r) val).isMapping = true := rfl

/-- A chain holds its leaf at the end of its path. -/
theorem getAt_nested_self (r : List Str) (val : Value) :
    getAt (nested r val) (strKeys r) = some val := by
  induction r with
  | nil => rfl
  | cons s r ih =>
    simp only [nested, strKeys, List.map_cons]
    rw [getAt_smap_str, mapLookup_single, if_pos rfl]
    exact ih

/-- A chain holds nothing at a position that branches off its path. -/
theorem getAt_nested_off_path (val : Value) (r : List Str) (q : List Scalar)
    (h1 : ¬ q <+: strKeys r) (h2 : ¬ strKeys r <+: q) : getAt (nested r val) q = none := by
  induction r generalizing q with
  | nil => exact absurd (List.nil_prefix) h2
  | cons s r ih =>
    cases q with
    | nil => exact absurd (List.nil_prefix) h1
    | cons k q =>
      simp only [nested]
      by_cases hk : k = .str s
      · subst hk
        rw [getAt_smap_str, mapLookup_single, if_pos rfl]
        simp only [Option.some_bind]
        apply ih
        · intro h
          exact h1 (by
            simp only [strKeys, List.map_cons]
            exact (List.prefix_cons_inj _).2 h)
        · intro h
          exact h2 (by
            simp only [strKeys, List.map_cons]
            exact (List.prefix_cons_inj _).2 h)
      · cases k with
        | str s2 =>
          have hne : s ≠ s2 := fun e => hk (by rw [e])
          rw [getAt_smap_str, mapLookup_single, if_neg hne]
          rfl
        | null => exact getAt_smap_not_str _ _ _ (by simp)
        | bool b => exact getAt_smap_not_str _ _ _ (by simp)
        | int i => exact getAt_smap_not_str _ _ _ (by simp)

/-- Frame of the merge of a chain: a position that branches off the written path holds
after the merge what it held before, through mappings of either kind. -/
theorem mergeValue_chain_frame (val : Value) (p : List Str) (d : Option Value)
    (q : List Scalar) (h1 : ¬ q <+: strKeys p) (h2 : ¬ strKeys p <+: q) :
    getAt (mergeValue d (nested p val)) q = d.bind (fun D => getAt D q) := by
  induction p generalizing d q with
  | nil => exact absurd (List.nil_prefix) h2
  | cons s r ih =>
    cases q with
    | nil => exact absurd (List.nil_prefix) h1
    | cons k q =>
      have hsub : k = .str s → (¬ q <+: strKeys r) ∧ (¬ strKeys r <+: q) := by
        intro hk
        subst hk
        constructor
        · intro h
          exact h1 (by
            simp only [strKeys, List.map_cons]
            exact (List.prefix_cons_inj _).2 h)
        · intro h
          exact h2 (by
            simp only [strKeys, List.map_cons]
            exact (List.prefix_cons_inj _).2 h)
      by_cases hm : ∃ D, d = some D ∧ D.isMapping = true
      · obtain ⟨D, rfl, hD⟩ := hm
        simp only [Option.some_bind]
        cases D with
        | scalar x => simp [Value.isMapping] at hD
        | arr xs => simp [Value.isMapping] at hD
        | smap dm =>
          simp only [nested]
          rw [mergeValue_smap_smap, deepMerge_single]
          cases k with
          | str k0 =>
            rw [getAt_smap_str, getAt_smap_str]
            by_cases hk : k0 = s
            · subst hk
              rw [mapLookup_mapAssign_self]
              simp only [Option.some_bind]
              exact ih _ q (hsub rfl).1 (hsub rfl).2
            · rw [mapLookup_mapAssign_ne _ _ _ _ hk]
          | null => rw [getAt_smap_not_str _ _ _ (by simp), getAt_smap_not_str _ _ _ (by simp)]
          | bool b => rw [getAt_smap_not_str _ _ _ (by simp), getAt_smap_not_str _ _ _ (by simp)]
          | int i => rw [getAt_smap_not_str _ _ _ (by simp), getAt_smap_not_str _ _ _ (by simp)]
        | imap dm =>
          simp only [nested]
          rw [mergeValue_imap_smap, deepMergeIntoIMap_single, getAt_imap_cons, getAt_imap_cons]
          by_cases hk : k = .str s
          · subst hk
            rw [imapLookup_imapAssign_self]
            simp only [Option.some_bind]
            exact ih _ q (hsub rfl).1 (hsub rfl).2
          · rw [imapLookup_imapAssign_ne _ _ _ _ hk]
      · have hnm : ∀ w, d = some w → w.isMapping = false := by
          intro w hw
          by_contra hc
          exact hm ⟨w, hw, by simpa using hc⟩
        rw [mergeValue_of_dst_not_mapping d _ hnm, getAt_nested_off_path val (s :: r) (k :: q) h1 h2]
        cases d with
        | none => rfl
        | some D =>
          simp only [Option.some_bind]
          exact (getAt_cons_of_not_mapping D k q (hnm D rfl)).symm

/-- What `Set` stores on the merge route is the override merge of the chain into the old
entry. -/
theorem smap_deepMerge_chain (m : SMap) (p : List Str) (hp : p ≠ []) (val : Value) :
    Value.smap (deepMerge m (buildValueByPath p val)) =
      mergeValue (some (.smap m)) (nested p val) := by
  obtain ⟨s, r, rfl⟩ := List.exists_cons_of_ne_nil hp
  rw [buildValueByPath_cons]
  simp only [nested]
  rw [mergeValue_smap_smap]

/-- The merge of a chain leaves the leaf at the end of the path when the leaf is not a
mapping, or when the destination holds no mapping there. -/
theorem mergeValue_chain_write (val : Value) (p : List Str) (d : Option Value)
    (h : val.isMapping = false ∨
      ∀ w, d.bind (fun D => getAt D (strKeys p)) = some w → w.isMapping = false) :
    getAt (mergeValue d (nested p val)) (strKeys p) = some val := by
  induction p generalizing d with
  | nil =>
    simp only [nested, strKeys, List.map_nil]
    rcases h with h | h
    · rw [mergeValue_of_src_not_mapping d val h]
      rfl
    · rw [mergeValue_of_dst_not_mapping d val (by
        intro w hw
        subst hw
        exact h w rfl)]
      rfl
  | cons s r ih =>
    by_cases hm : ∃ D, d = some D ∧ D.isMapping = true
    · obtain ⟨D, rfl, hD⟩ := hm
      simp only [Option.some_bind] at h
      cases D with
      | scalar x => simp [Value.isMapping] at hD
      | arr xs => simp [Value.isMapping] at hD
      | smap dm =>
        simp only [nested, strKeys, List.map_cons]
        rw [mergeValue_smap_smap, deepMerge_single, getAt_smap_str, mapLookup_mapAssign_self]
        simp only [Option.some_bind]
        apply ih
        rcases h with h | h
        · exact Or.inl h
        · right
          intro w hw
          apply h w
          simp only [strKeys, List.map_cons]
          rw [getAt_smap_str]
          exact hw
      | imap dm =>
        simp only [nested, strKeys, List.map_cons]
        rw [mergeValue_imap_smap, deepMergeIntoIMap_single, getAt_imap_cons,
          imapLookup_imapAssign_self]
        simp only [Option.some_bind]
        apply ih
        rcases h with h | h
        · exact Or.inl h
        · right
          intro w hw
          apply h w
          simp only [strKeys, List.map_cons]
          rw [getAt_imap_cons]
          exact hw
    · have hnm : ∀ w, d = some w → w.isMapping = false := by
        intro w hw
        by_contra hc
        exact hm ⟨w, hw, by simpa using hc⟩
      rw [mergeValue_of_dst_not_mapping d _ hnm]
      exact getAt_nested_self (s :: r) val

/-- The merge of a chain writes at a position `q` of the path the rest of the chain,
unless both the old value there and the incoming one are mappings. -/
theorem deepMerge_chain_write (val : Value) (q : List Str) (hq : q ≠ []) (r : List Str)
    (m : SMap) (w : Value) (hget : getPath (.smap m) q = some w)
    (hshape : w.isMapping = false ∨ (nested r val).isMapping = false) :
    getPath (.smap (deepMerge m (buildValueByPath (q ++ r) val))) q = some (nested r val) := by
  induction q generalizing m with
  | nil => exact absurd rfl hq
  | cons s q ih =>
    rw [List.cons_append, buildValueByPath_cons, deepMerge_single, getPath_smap_cons,
      mapLookup_mapAssign_self]
    simp only
    rw [getPath_smap_cons] at hget
    cases hl : mapLookup s m with
    | none => simp [hl] at hget
    | some w1 =>
      rw [hl] at hget
      simp only at hget
      cases q with
      | nil =>
        simp only [getPath, Option.some.injEq] at hget
        subst hget
        simp only [List.nil_append]
        rcases hshape with h | h
        · rw [mergeValue_of_dst_not_mapping _ _ (by
            intro w hw
            rw [← Option.some.inj hw]
            exact h)]
          rfl
        · rw [mergeValue_of_src_not_mapping _ _ h]
          rfl
      | cons s2 q2 =>
        by_cases hw1 : ∃ dm, w1 = .smap dm
        · obtain ⟨dm, rfl⟩ := hw1
          have hn : nested ((s2 :: q2) ++ r) val =
              .smap (buildValueByPath ((s2 :: q2) ++ r) val) := by
            rw [List.cons_append, buildValueByPath_cons]; rfl
          rw [hn, mergeValue_smap_smap]
          exact ih (by simp) dm hget
        · have hw' : ∀ dm, w1 ≠ .smap dm := fun dm e => hw1 ⟨dm, e⟩
          rw [getPath_cons_of_not_smap w1 s2 q2 hw'] at hget
          exact absurd hget (by simp)

/-- C2 (as amended): on a store that is not readonly and whose entry for the top key `t`
is a string-keyed mapping `m`, `Set` with path semantics enabled on a key that splits into
`t` and a non-empty tail path `p` returns without error and stores a string-keyed mapping
under `t` in which every position `q`, followed through mappings of either kind, that
branches off `p` (`q` is not a prefix of `p` and `p` is not a prefix of `q`) holds exactly
what it held in `m`: the keys of `m`, and of the mappings nested in `m` through mappings,
that are neither on the written path nor below its end are still present with their
previous values. -/
theorem Set_merge_keeps_off_path_keys (c : Config) (key t : Str) (p : List Str)
    (val : Value) (setByPath : List Bool) (m : SMap) (hro : c.opts.Readonly = false)
    (hkey : Split (Trim (TrimSpace key) ".".toList) '.' = t :: p) (hp : p ≠ [])
    (hflag : pathDisabled setByPath = false) (hm : mapLookup t c.data = some (.smap m)) :
    ∃ m', c.Set key val setByPath =
        .returned none { c with data := mapAssign t (.smap m') c.data } ∧
      ∀ q, ¬ q <+: strKeys p → ¬ strKeys p <+: q →
        getAt (.smap m') q = getAt (.smap m) q := by
  refine ⟨deepMerge m (buildValueByPath p val),
    Set_smap c key t p val setByPath m hro hkey hp hflag hm, ?_⟩
  intro q h1 h2
  rw [smap_deepMerge_chain m p hp val]
  exact mergeValue_chain_frame val p (some (.smap m)) q h1 h2

/-- Witness for C2: given `{a: {x: 1}}`, `Set("a.y", 2)` yields `{a: {x: 1, y: 2}}`; and
given `{a: {x: {y: 1}}}` with an arbitrary-keyed inner mapping, `Set("a.x.z", 2)` yields
`{a: {x: {y: 1, z: 2}}}`. -/
theorem Set_merge_keeps_off_path_keys_witness :
    ((Config.mk ⟨false⟩ [("a".toList, .smap [("x".toList, .scalar (.int 1))])]).Set
        "a.y".toList (.scalar (.int 2)) [] =
      .returned none ⟨⟨false⟩, [("a".toList,
        .smap [("x".toList, .scalar (.int 1)), ("y".toList, .scalar (.int 2))])]⟩ ∧
     (Config.mk ⟨false⟩ [("a".toList,
        .smap [("x".toList, .imap [(.str "y".toList, .scalar (.int 1))])])]).Set
        "a.x.z".toList (.scalar (.int 2)) [] =
      .returned none ⟨⟨false⟩, [("a".toList, .smap [("x".toList,
        .imap [(.str "y".toList, .scalar (.int 1)),
          (.str "z".toList, .scalar (.int 2))])])]⟩) ∧
    ∃ m', (Config.mk ⟨false⟩ [("a".toList,
        .smap [("x".toList, .imap [(.str "y".toList, .scalar (.int 1))])])]).Set
        "a.x.z".toList (.scalar (.int 2)) [] =
        .returned none ⟨⟨false⟩, mapAssign "a".toList (.smap m')
          [("a".toList, .smap [("x".toList, .imap [(.str "y".toList, .scalar (.int 1))])])]⟩ ∧
      ∀ q, ¬ q <+: strKeys ["x".toList, "z".toList] →
        ¬ strKeys ["x".toList, "z".toList] <+: q →
        getAt (.smap m') q =
          getAt (.smap [("x".toList, .imap [(.str "y".toList, .scalar (.int 1))])]) q :=
  ⟨⟨rfl, rfl⟩, Set_merge_keeps_off_path_keys ⟨⟨false⟩, [("a".toList,
    .smap [("x".toList, .imap [(.str "y".toList, .scalar (.int 1))])])]⟩ "a.x.z".toList
    "a".toList ["x".toList, "z".toList] (.scalar (.int 2)) []
    [("x".toList, .imap [(.str "y".toList, .scalar (.int 1))])] rfl rfl (by simp) rfl rfl⟩

/-- Counterexample to C2 as stated: given `{a: {x: {y: 1}}}`, `Set("a.x", 2)` succeeds and
yields `{a: {x: 2}}`; the key `y` of the nested mapping, at position `x.y`, is not on the
written path `x` (it is not a prefix of it), held `1` before and is gone afterwards. -/
theorem Set_merge_drops_keys_below_path :
    (Config.mk ⟨false⟩ [("a".toList,
        .smap [("x".toList, .smap [("y".toList, .scalar (.int 1))])])]).Set
        "a.x".toList (.scalar (.int 2)) [] =
      .returned none ⟨⟨false⟩, [("a".toList, .smap [("x".toList, .scalar (.int 2))])]⟩ ∧
    getPath (.smap [("x".toList, .smap [("y".toList, .scalar (.int 1))])])
        ["x".toList, "y".toList] = some (.scalar (.int 1)) ∧
    ¬ ["x".toList, "y".toList] <+: ["x".toList] ∧
    getPath (.smap [("x".toList, .scalar (.int 2))]) ["x".toList, "y".toList] = none :=
  ⟨rfl, rfl, by decide, rfl⟩

/-- C3: on a store that is not readonly and whose entry for the top key `t` is a
string-keyed mapping that holds a leaf (a value that is not a mapping) at the tail path
`p`, `Set` with path semantics enabled returns without error, and afterwards following `t`
and then the segments of `p` through the nested mappings of the store reaches `val`. -/
theorem Set_overrides_existing_leaf (c : Config) (key t : Str) (p : List Str)
    (val : Value) (setByPath : List Bool) (m : SMap) (w : Value)
    (hro : c.opts.Readonly = false)
    (hkey : Split (Trim (TrimSpace key) ".".toList) '.' = t :: p) (hp : p ≠ [])
    (hflag : pathDisabled setByPath = false) (hm : mapLookup t c.data = some (.smap m))
    (hleaf : getPath (.smap m) p = some w) (hw : w.isMapping = false) :
    ∃ c', c.Set key val setByPath = .returned none c' ∧
      getPath (.smap c'.data) (t :: p) = some val := by
  refine ⟨_, Set_smap c key t p val setByPath m hro hkey hp hflag hm, ?_⟩
  rw [getPath_smap_cons, mapLookup_mapAssign_self]
  simp only
  have h := deepMerge_chain_write val p hp [] m w hleaf (Or.inl hw)
  rw [List.append_nil] at h
  exact h

/-- Witness for C3: given `{a: {x: 1}}`, `Set("a.x", 2)` yields `{a: {x: 2}}`. -/
theorem Set_overrides_existing_leaf_witness :
    (Config.mk ⟨false⟩ [("a".toList, .smap [("x".toList, .scalar (.int 1))])]).Set
        "a.x".toList (.scalar (.int 2)) [] =
      .returned none ⟨⟨false⟩, [("a".toList, .smap [("x".toList, .scalar (.int 2))])]⟩ ∧
    ∃ c', (Config.mk ⟨false⟩ [("a".toList, .smap [("x".toList, .scalar (.int 1))])]).Set
        "a.x".toList (.scalar (.int 2)) [] = .returned none c' ∧
      getPath (.smap c'.data) ["a".toList, "x".toList] = some (.scalar (.int 2)) :=
  ⟨rfl, Set_overrides_existing_leaf ⟨⟨false⟩, [("a".toList,
    .smap [("x".toList, .scalar (.int 1))])]⟩ "a.x".toList "a".toList ["x".toList]
    (.scalar (.int 2)) [] [("x".toList, .scalar (.int 1))] (.scalar (.int 1))
    rfl rfl (by simp) rfl rfl rfl rfl⟩

/-- C4: on a store that is not readonly and whose entry for the top key `t` is a
string-keyed mapping, when the value `w` met at a position `q` of the written path
`q ++ r` and the incoming value for that position (the chain of the remaining segments
`r` around `val`) differ in shape, one a mapping and the other not, `Set` with path
semantics enabled returns without error and the position `q` then holds the incoming
value: a scalar gives way to a whole subtree and a subtree to a scalar. -/
theorem Set_incoming_shape_wins (c : Config) (key t : Str) (q r : List Str)
    (val : Value) (setByPath : List Bool) (m : SMap) (w : Value)
    (hro : c.opts.Readonly = false)
    (hkey : Split (Trim (TrimSpace key) ".".toList) '.' = t :: (q ++ r)) (hq : q ≠ [])
    (hflag : pathDisabled setByPath = false) (hm : mapLookup t c.data = some (.smap m))
    (hget : getPath (.smap m) q = some w)
    (hshape : w.isMapping ≠ (nested r val).isMapping) :
    ∃ c', c.Set key val setByPath = .returned none c' ∧
      getPath (.smap c'.data) (t :: q) = some (nested r val) := by
  refine ⟨_, Set_smap c key t (q ++ r) val setByPath m hro hkey (by simp [hq]) hflag hm, ?_⟩
  rw [getPath_smap_cons, mapLookup_mapAssign_self]
  simp only
  apply deepMerge_chain_write val q hq r m w hget
  by_cases hw : w.isMapping = true
  · right
    rw [hw] at hshape
    cases hn : (nested r val).isMapping with
    | false => rfl
    | true => exact absurd hn.symm hshape
  · left
    simpa using hw

/-- Witness for C4: given `{a: {x: 1}}`, `Set("a.x.y", 2)` yields `{a: {x: {y: 2}}}`, and
given `{a: {x: {y: 1}}}`, `Set("a.x", 2)` yields `{a: {x: 2}}`. -/
theorem Set_incoming_shape_wins_witness :
    ((Config.mk ⟨false⟩ [("a".toList, .smap [("x".toList, .scalar (.int 1))])]).Set
        "a.x.y".toList (.scalar (.int 2)) [] =
      .returned none ⟨⟨false⟩, [("a".toList,
        .smap [("x".toList, .smap [("y".toList, .scalar (.int 2))])])]⟩ ∧
     (Config.mk ⟨false⟩ [("a".toList,
        .smap [("x".toList, .smap [("y".toList, .scalar (.int 1))])])]).Set
        "a.x".toList (.scalar (.int 2)) [] =
      .returned none ⟨⟨false⟩, [("a".toList, .smap [("x".toList, .scalar (.int 2))])]⟩) ∧
    (∃ c', (Config.mk ⟨false⟩ [("a".toList, .smap [("x".toList, .scalar (.int 1))])]).Set
        "a.x.y".toList (.scalar (.int 2)) [] = .returned none c' ∧
      getPath (.smap c'.data) ["a".toList, "x".toList] =
        some (.smap [("y".toList, .scalar (.int 2))])) ∧
    (∃ c', (Config.mk ⟨false⟩ [("a".toList,
        .smap [("x".toList, .smap [("y".toList, .scalar (.int 1))])])]).Set
        "a.x".toList (.scalar (.int 2)) [] = .returned none c' ∧
      getPath (.smap c'.data) ["a".toList, "x".toList] = some (.scalar (.int 2))) :=
  ⟨⟨rfl, rfl⟩,
    Set_incoming_shape_wins ⟨⟨false⟩, [("a".toList,
      .smap [("x".toList, .scalar (.int 1))])]⟩ "a.x.y".toList "a".toList ["x".toList]
      ["y".toList] (.scalar (.int 2)) [] [("x".toList, .scalar (.int 1))] (.scalar (.int 1))
      rfl rfl (by simp) rfl rfl rfl (by decide),
    Set_incoming_shape_wins ⟨⟨false⟩, [("a".toList,
      .smap [("x".toList, .smap [("y".toList, .scalar (.int 1))])])]⟩ "a.x".toList
      "a".toList ["x".toList] [] (.scalar (.int 2)) []
      [("x".toList, .smap [("y".toList, .scalar (.int 1))])]
      (.smap [("y".toList, .scalar (.int 1))]) rfl rfl (by simp) rfl rfl rfl (by decide)⟩

theorem digitChar_spec : ∀ d, d < 10 →
    (Char.ofNat (48 + d)).isDigit = true ∧ (Char.ofNat (48 + d)).toNat - 48 = d := by
  decide

theorem digitsValue_append_single (ds : Str) (ch : Char) :
    digitsValue (ds ++ [ch]) = digitsValue ds * 10 + (ch.toNat - 48) := by
  simp [digitsValue, List.foldl_append]

/-- The digit loop, given enough fuel, puts in front of `acc` a non-empty run of ASCII
digits whose value is `u`. -/
theorem formatBits_spec (fuel u : Nat) (acc : Str) (h : u < fuel) :
    ∃ ds, formatBits fuel u acc = ds ++ acc ∧ ds ≠ [] ∧
      (∀ ch ∈ ds, ch.isDigit = true) ∧ digitsValue ds = u := by
  induction fuel generalizing u acc with
  | zero => omega
  | succ fuel ih =>
    unfold formatBits
    by_cases hu : u < 10
    · refine ⟨[Char.ofNat (48 + u)], by simp [hu], by simp, ?_, ?_⟩
      · intro ch hch
        simp only [List.mem_singleton] at hch
        rw [hch]
        exact (digitChar_spec u hu).1
      · have := (digitChar_spec u hu).2
        simp [digitsValue, this]
    · obtain ⟨ds, h1, _, h3, h4⟩ :=
        ih (u / 10) (Char.ofNat (48 + u % 10) :: acc) (by omega)
      have hd := digitChar_spec (u % 10) (Nat.mod_lt _ (by decide))
      refine ⟨ds ++ [Char.ofNat (48 + u % 10)], by simp [hu, h1], by simp, ?_, ?_⟩
      · intro ch hch
        rcases List.mem_append.1 hch with hc | hc
        · exact h3 ch hc
        · simp only [List.mem_singleton] at hc
          rw [hc]
          exact hd.1
      · rw [digitsValue_append_single, h4, hd.2]
        omega

/-- Parsing the decimal form of a natural number that fits in an `int` gives it back. -/
theorem Atoi_Itoa_ofNat (i : Nat) (hi : i < 2 ^ 63) : Atoi (Itoa (i : Int)) = some (i : Int) := by
  obtain ⟨ds, h1, h2, h3, h4⟩ := formatBits_spec (i + 1) i [] (by omega)
  have hI : Itoa (i : Int) = ds := by
    unfold Itoa
    have : ¬ ((i : Int) < 0) := by omega
    simp [this, h1]
  rw [hI]
  obtain ⟨d, ds', rfl⟩ := List.exists_cons_of_ne_nil h2
  have hd : d.isDigit = true := h3 d (by simp)
  have hm : d ≠ '-' := by
    rintro rfl
    exact absurd hd (by decide)
  have hpl : d ≠ '+' := by
    rintro rfl
    exact absurd hd (by decide)
  have hall : (d :: ds').all Char.isDigit = true := by
    rw [List.all_eq_true]
    exact h3
  unfold Atoi
  simp only [List.head?_cons, Option.some.injEq, hm, hpl, or_self, if_false, hall, h4, hi,
    if_true]
  simp

theorem Set_arr_in_range (c : Config) (key t k1 : Str) (val : Value)
    (setByPath : List Bool) (xs : List Value) (i : Nat) (hro : c.opts.Readonly = false)
    (hkey : Split (Trim (TrimSpace key) ".".toList) '.' = [t, k1])
    (hflag : pathDisabled setByPath = false) (hm : mapLookup t c.data = some (.arr xs))
    (hA : Atoi k1 = some (i : Int)) (hi : i < xs.length) :
    c.Set key val setByPath =
      .returned none { c with data := mapAssign t (.arr (xs.set i val)) c.data } := by
  rw [Set_arr c key t k1 [] val setByPath xs hro hkey hflag hm, hA]
  have h1 : (i : Int) ≤ (xs.length : Int) := by omega
  have h2 : (0 : Int) ≤ (i : Int) ∧ (i : Int) < (xs.length : Int) := by omega
  simp only [if_true, h1, h2, and_self, Int.toNat_ofNat]

/-- The bounds guard of the sequence case lets through the index equal to the length and
every negative index, and the write then panics. -/
theorem Set_arr_out_of_range (c : Config) (key t k1 : Str) (val : Value)
    (setByPath : List Bool) (xs : List Value) (index : Int) (hro : c.opts.Readonly = false)
    (hkey : Split (Trim (TrimSpace key) ".".toList) '.' = [t, k1])
    (hflag : pathDisabled setByPath = false) (hm : mapLookup t c.data = some (.arr xs))
    (hA : Atoi k1 = some index) (hi : index < 0 ∨ index = (xs.length : Int)) :
    c.Set key val setByPath = .panic := by
  rw [Set_arr c key t k1 [] val setByPath xs hro hkey hflag hm, hA]
  have h1 : index ≤ (xs.length : Int) := by omega
  have h2 : ¬ ((0 : Int) ≤ index ∧ index < (xs.length : Int)) := by omega
  simp only [if_true, h1, h2, if_false]

/-- C5: on a store that is not readonly and whose entry for the top key `t` is a sequence
`xs`, `Set` with path semantics enabled on a key that splits into `t` and the decimal form
of an index `i < length xs` returns without error, and the entry for `t` is then the
sequence of the same length whose element `i` is `val` and whose other elements are those
of `xs`. -/
theorem Set_sequence_element (c : Config) (key t : Str) (val : Value)
    (setByPath : List Bool) (xs : List Value) (i : Nat) (hro : c.opts.Readonly = false)
    (hkey : Split (Trim (TrimSpace key) ".".toList) '.' = [t, Itoa (i : Int)])
    (hflag : pathDisabled setByPath = false) (hm : mapLookup t c.data = some (.arr xs))
    (hi : i < xs.length) (hlen : xs.length < 2 ^ 63) :
    ∃ ys, c.Set key val setByPath =
        .returned none { c with data := mapAssign t (.arr ys) c.data } ∧
      mapLookup t (mapAssign t (.arr ys) c.data) = some (.arr ys) ∧
      ys.length = xs.length ∧ ys[i]? = some val ∧ ∀ j, j ≠ i → ys[j]? = xs[j]? := by
  refine ⟨xs.set i val, ?_, mapLookup_mapAssign_self _ _ _, by simp, ?_, ?_⟩
  · exact Set_arr_in_range c key t _ val setByPath xs i hro hkey hflag hm
      (Atoi_Itoa_ofNat i (by omega)) hi
  · simp [List.getElem?_set, hi]
  · intro j hj
    simp [List.getElem?_set, Ne.symm hj]

/-- Witness for C5: given `{a: [10, 20, 30]}`, `Set("a.1", 99)` yields
`{a: [10, 99, 30]}`. -/
theorem Set_sequence_element_witness :
    (Config.mk ⟨false⟩ [("a".toList,
        .arr [.scalar (.int 10), .scalar (.int 20), .scalar (.int 30)])]).Set
        "a.1".toList (.scalar (.int 99)) [] =
      .returned none ⟨⟨false⟩, [("a".toList,
        .arr [.scalar (.int 10), .scalar (.int 99), .scalar (.int 30)])]⟩ ∧
    ∃ ys, (Config.mk ⟨false⟩ [("a".toList,
        .arr [.scalar (.int 10), .scalar (.int 20), .scalar (.int 30)])]).Set
        "a.1".toList (.scalar (.int 99)) [] =
        .returned none ⟨⟨false⟩, mapAssign "a".toList (.arr ys) [("a".toList,
          .arr [.scalar (.int 10), .scalar (.int 20), .scalar (.int 30)])]⟩ ∧
      mapLookup "a".toList (mapAssign "a".toList (.arr ys) [("a".toList,
          .arr [.scalar (.int 10), .scalar (.int 20), .scalar (.int 30)])]) =
        some (.arr ys) ∧
      ys.length = 3 ∧ ys[1]? = some (.scalar (.int 99)) ∧
      ∀ j, j ≠ 1 →
        ys[j]? = [Value.scalar (.int 10), .scalar (.int 20), .scalar (.int 30)][j]? :=
  ⟨rfl, Set_sequence_element ⟨⟨false⟩, [("a".toList,
    .arr [.scalar (.int 10), .scalar (.int 20), .scalar (.int 30)])]⟩ "a.1".toList
    "a".toList (.scalar (.int 99)) []
    [.scalar (.int 10), .scalar (.int 20), .scalar (.int 30)] 1 rfl rfl rfl rfl
    (by decide) (by decide)⟩

/-- C6: on a store that is not readonly and whose entry for the top key `t` is a sequence,
`Set` with path semantics enabled fails with the array-depth error, whose message ends
with the normalized key, whenever the tail path has more than one segment or its single
segment is not accepted by `Atoi`; the store, and so the sequence, is returned as it
was. -/
theorem Set_sequence_depth_error (c : Config) (key t : Str) (p : List Str) (val : Value)
    (setByPath : List Bool) (xs : List Value) (hro : c.opts.Readonly = false)
    (hkey : Split (Trim (TrimSpace key) ".".toList) '.' = t :: p)
    (hflag : pathDisabled setByPath = false) (hm : mapLookup t c.data = some (.arr xs))
    (hbad : 1 < p.length ∨ ∃ s, p = [s] ∧ Atoi s = none) :
    c.Set key val setByPath =
        .returned (some (.arrayDepth (Trim (TrimSpace key) ".".toList))) c ∧
      (SetError.arrayDepth (Trim (TrimSpace key) ".".toList)).Error =
        "max allow 1 level for setting array value, current key: ".toList ++
          Trim (TrimSpace key) ".".toList := by
  refine ⟨?_, rfl⟩
  rcases hbad with h | ⟨s, rfl, hs⟩
  · obtain _ | ⟨k1, _ | ⟨k2, rest⟩⟩ := p
    · simp at h
    · simp at h
    · rw [Set_arr c key t k1 (k2 :: rest) val setByPath xs hro hkey hflag hm]
      cases Atoi k1 <;> simp
  · rw [Set_arr c key t s [] val setByPath xs hro hkey hflag hm, hs]

/-- Witness for C6: given `{a: [10, 20, 30]}`, `Set("a.1.2", 99)` fails with the
array-depth error naming `a.1.2`. -/
theorem Set_sequence_depth_error_witness :
    (Config.mk ⟨false⟩ [("a".toList,
        .arr [.scalar (.int 10), .scalar (.int 20), .scalar (.int 30)])]).Set
        "a.1.2".toList (.scalar (.int 99)) [] =
      .returned (some (.arrayDepth "a.1.2".toList)) ⟨⟨false⟩, [("a".toList,
        .arr [.scalar (.int 10), .scalar (.int 20), .scalar (.int 30)])]⟩ ∧
    (SetError.arrayDepth "a.1.2".toList).Error =
      "max allow 1 level for setting array value, current key: a.1.2".toList :=
  Set_sequence_depth_error ⟨⟨false⟩, [("a".toList,
    .arr [.scalar (.int 10), .scalar (.int 20), .scalar (.int 30)])]⟩ "a.1.2".toList
    "a".toList ["1".toList, "2".toList] (.scalar (.int 99)) []
    [.scalar (.int 10), .scalar (.int 20), .scalar (.int 30)] rfl rfl rfl rfl
    (Or.inl (by decide))

/-- C7 (the code at the failing input): given `{a: [10, 20, 30]}`, `Set("a.3", 99)` passes
the guard `index <= len(typeData)` and the write `typeData[3] = val` panics: the call
neither writes nor returns. -/
theorem Set_index_equal_to_length_panics :
    (Config.mk ⟨false⟩ [("a".toList,
        .arr [.scalar (.int 10), .scalar (.int 20), .scalar (.int 30)])]).Set
        "a.3".toList (.scalar (.int 99)) [] = .panic ∧
    Atoi "3".toList = some 3 :=
  ⟨rfl, rfl⟩

/-- C8 (the code at the failing input): given `{a: [10, 20, 30]}`, `Set("a.-1", 99)` is
not rejected with the array-depth error: `Atoi` accepts `-1`, the guard
`index <= len(typeData)` holds and the write `typeData[-1] = val` panics. -/
theorem Set_negative_index_panics :
    (Config.mk ⟨false⟩ [("a".toList,
        .arr [.scalar (.int 10), .scalar (.int 20), .scalar (.int 30)])]).Set
        "a.-1".toList (.scalar (.int 99)) [] = .panic ∧
    Atoi "-1".toList = some (-1) :=
  ⟨rfl, rfl⟩

theorem Config_Readonly_idem (c : Config) (h : c.opts.Readonly = true) : c.Readonly = c := by
  obtain ⟨⟨ro⟩, data⟩ := c
  simp only at h
  subst h
  rfl

theorem Set_of_readonly (c : Config) (key : Str) (val : Value) (setByPath : List Bool)
    (h : c.opts.Readonly = true) : c.Set key val setByPath = .returned (some .readonly) c := by
  unfold Config.Set
  simp [h]

theorem run_of_readonly (c : Config) (ops : List Op) (h : c.opts.Readonly = true) :
    c.run ops = some c := by
  induction ops with
  | nil => rfl
  | cons op ops ih =>
    cases op with
    | Readonly =>
      simp only [Config.run, Config.apply]
      rw [Config_Readonly_idem c h]
      exact ih
    | Set key val setByPath =>
      simp only [Config.run, Config.apply]
      rw [Set_of_readonly c key val setByPath h]
      exact ih

/-- C9: `Readonly()` changes no data; after it, whatever sequence of operations of this
file follows, the store is still the one `Readonly()` left (the flag is never reset), and
every `Set` call, for every key (the empty one included), value and path flag, fails with
the readonly error and leaves the store unchanged. -/
theorem Readonly_blocks_every_later_Set (c : Config) (ops : List Op) (key : Str)
    (val : Value) (setByPath : List Bool) :
    c.Readonly.data = c.data ∧
      ∃ c', c.Readonly.run ops = some c' ∧ c'.opts.Readonly = true ∧ c'.data = c.data ∧
        c'.Set key val setByPath = .returned (some .readonly) c' ∧
        c'.Set [] val setByPath = .returned (some .readonly) c' ∧
        SetError.readonly.Error = "the config instance in 'readonly' mode".toList :=
  ⟨rfl, c.Readonly, run_of_readonly c.Readonly ops rfl, rfl, rfl,
    Set_of_readonly c.Readonly key val setByPath rfl,
    Set_of_readonly c.Readonly [] val setByPath rfl, rfl⟩

/-- C10: on a store that is not readonly, whatever the path flag (omitted, true or false),
`Set` fails with the empty-key error exactly when the key, trimmed of surrounding
whitespace and then of leading and trailing dots, is empty; the store is then returned as
it was. -/
theorem Set_emptyKey_iff (c : Config) (key : Str) (val : Value) (setByPath : List Bool)
    (hro : c.opts.Readonly = false) :
    ((∃ c', c.Set key val setByPath = .returned (some .emptyKey) c') ↔
        Trim (TrimSpace key) ".".toList = []) ∧
      (Trim (TrimSpace key) ".".toList = [] →
        c.Set key val setByPath = .returned (some .emptyKey) c) := by
  have hback : Trim (TrimSpace key) ".".toList = [] →
      c.Set key val setByPath = .returned (some .emptyKey) c := by
    intro h
    unfold Config.Set
    simp only [hro, h]
    simp
  refine ⟨⟨?_, fun h => ⟨c, hback h⟩⟩, hback⟩
  rintro ⟨c', h⟩
  by_contra hne
  unfold Config.Set at h
  simp only [hro, hne, if_false, Bool.false_eq_true, mergoMerge] at h
  repeat' split at h
  all_goals simp at h

/-- Witness for C10: the keys `""`, `"   "`, `"..."` and `" .. "` are rejected with the
empty-key error, with the path flag omitted, true or false. -/
theorem Set_emptyKey_iff_witness :
    ((Config.mk ⟨false⟩ []).Set "".toList (.scalar (.int 1)) [] =
        .returned (some .emptyKey) ⟨⟨false⟩, []⟩ ∧
      (Config.mk ⟨false⟩ []).Set "   ".toList (.scalar (.int 1)) [true] =
        .returned (some .emptyKey) ⟨⟨false⟩, []⟩ ∧
      (Config.mk ⟨false⟩ []).Set "...".toList (.scalar (.int 1)) [false] =
        .returned (some .emptyKey) ⟨⟨false⟩, []⟩) ∧
    ((∃ c', (Config.mk ⟨false⟩ []).Set " .. ".toList (.scalar (.int 1)) [false] =
        .returned (some .emptyKey) c') ↔ Trim (TrimSpace " .. ".toList) ".".toList = []) ∧
    (Trim (TrimSpace " .. ".toList) ".".toList = [] →
      (Config.mk ⟨false⟩ []).Set " .. ".toList (.scalar (.int 1)) [false] =
        .returned (some .emptyKey) ⟨⟨false⟩, []⟩) :=
  ⟨⟨rfl, rfl, rfl⟩,
    Set_emptyKey_iff ⟨⟨false⟩, []⟩ " .. ".toList (.scalar (.int 1)) [false] rfl⟩

theorem Split_of_Contains (s : Str) (sep : Char) (h : Contains s sep = true) :
    ∃ t k1 p, Split s sep = t :: k1 :: p := by
  induction s with
  | nil => simp [Contains] at h
  | cons r rest ih =>
    by_cases hr : r = sep
    · obtain ⟨a, b, hab⟩ := List.exists_cons_of_ne_nil (Split_ne_nil rest sep)
      exact ⟨[], a, b, by simp [Split, hr, hab]⟩
    · have hc : Contains rest sep = true := by
        simp only [Contains, List.contains_cons, Bool.or_eq_true, beq_iff_eq] at h
        rcases h with h | h
        · exact absurd h.symm hr
        · simpa [Contains] using h
      obtain ⟨t, k1, p, hs⟩ := ih hc
      exact ⟨r :: t, k1, p, by simp [Split, hr, hs]⟩

theorem mapAssign_idem (k : Str) (v : Value) (m : SMap) :
    mapAssign k v (mapAssign k v m) = mapAssign k v m := by
  induction m with
  | nil => simp [mapAssign]
  | cons kv rest ih =>
    obtain ⟨k', v'⟩ := kv
    by_cases h : k' = k
    · simp [mapAssign, h]
    · simp [mapAssign, h, ih]

theorem mapAssign_of_mapLookup (k : Str) (v : Value) (m : SMap)
    (h : mapLookup k m = some v) : mapAssign k v m = m := by
  induction m with
  | nil => simp [mapLookup] at h
  | cons kv rest ih =>
    obtain ⟨k', v'⟩ := kv
    by_cases hk : k' = k
    · simp only [mapLookup, hk, if_true, Option.some.injEq] at h
      simp [mapAssign, hk, h]
    · simp only [mapLookup, hk, if_false] at h
      simp [mapAssign, hk, ih h]

theorem Set_literal (c : Config) (key : Str) (val : Value) (setByPath : List Bool)
    (hro : c.opts.Readonly = false) (hne : Trim (TrimSpace key) ".".toList ≠ [])
    (hlit : Contains (Trim (TrimSpace key) ".".toList) '.' = false ∨
      pathDisabled setByPath = true) :
    c.Set key val setByPath =
      .returned none { c with data := mapAssign (Trim (TrimSpace key) ".".toList) val c.data } := by
  unfold Config.Set
  simp only [hro, hne]
  rcases hlit with h | h
  · simp only [h]
    simp
  · simp only [h]
    simp

theorem Set_scalar (c : Config) (key t : Str) (p : List Str) (val : Value)
    (setByPath : List Bool) (s : Scalar) (hro : c.opts.Readonly = false)
    (hkey : Split (Trim (TrimSpace key) ".".toList) '.' = t :: p) (hp : p ≠ [])
    (hflag : pathDisabled setByPath = false) (hm : mapLookup t c.data = some (.scalar s)) :
    c.Set key val setByPath =
      .returned (some (.unsupportedType (Trim (TrimSpace key) ".".toList))) c := by
  obtain ⟨hne, hc⟩ := Contains_of_Split _ _ _ _ hkey hp
  unfold Config.Set
  simp only [hro, hne, hc, hflag, hkey, hm]
  simp

theorem Set_imap (c : Config) (key t : Str) (p : List Str) (val : Value)
    (setByPath : List Bool) (im : List (Scalar × Value)) (hro : c.opts.Readonly = false)
    (hkey : Split (Trim (TrimSpace key) ".".toList) '.' = t :: p) (hp : p ≠ [])
    (hflag : pathDisabled setByPath = false) (hm : mapLookup t c.data = some (.imap im)) :
    c.Set key val setByPath =
      .returned none
        { c with
          data := mapAssign t
            (.smap (deepMerge (stringifyKeys im) (buildValueByPath p val))) c.data } := by
  obtain ⟨hne, hc⟩ := Contains_of_Split _ _ _ _ hkey hp
  unfold Config.Set
  simp only [hro, hne, hc, hflag, hkey, hm, mergoMerge]
  simp

theorem Contains_TrimFunc (s : Str) (f : Char → Bool) (sep : Char)
    (h : Contains s sep = false) : Contains (TrimFunc s f) sep = false := by
  have hsub : ∀ x, x ∈ TrimFunc s f → x ∈ s := by
    intro x hx
    unfold TrimFunc at hx
    rw [List.mem_reverse] at hx
    have h1 := (List.dropWhile_suffix f).subset hx
    rw [List.mem_reverse] at h1
    exact (List.dropWhile_suffix f).subset h1
  by_contra hc
  have hc' : Contains (TrimFunc s f) sep = true := by simpa using hc
  simp only [Contains, List.contains_iff_exists_mem_beq, beq_iff_eq] at hc'
  obtain ⟨x, hx, hxe⟩ := hc'
  have : Contains s sep = true := by
    simp only [Contains, List.contains_iff_exists_mem_beq, beq_iff_eq]
    exact ⟨x, hsub x hx, hxe⟩
  rw [h] at this
  exact absurd this (by simp)

theorem TrimFunc_eq_self (s : Str) (f : Char → Bool) (h : ∀ x ∈ s, f x = false) :
    TrimFunc s f = s := by
  have hd : ∀ l : Str, (∀ x ∈ l, f x = false) → l.dropWhile f = l := by
    intro l hl
    cases l with
    | nil => rfl
    | cons a r => simp [List.dropWhile, hl a (by simp)]
  unfold TrimFunc
  rw [hd s h, hd s.reverse (fun x hx => h x (List.mem_reverse.1 hx)), List.reverse_reverse]

theorem not_mem_of_not_Contains (s : Str) (sep : Char) (h : Contains s sep = false) :
    ∀ x ∈ s, (['.'].contains x = false ∨ sep ≠ '.') := by
  intro x hx
  by_cases hs : sep = '.'
  · left
    subst hs
    by_contra hc
    have hx' : x = '.' := by simpa using hc
    subst hx'
    have : Contains s '.' = true := by
      simp only [Contains, List.contains_iff_exists_mem_beq, beq_iff_eq]
      exact ⟨_, hx, rfl⟩
    rw [h] at this
    exact absurd this (by simp)
  · exact Or.inr hs

/-- C11 (as amended): on a store that is not readonly, for a key that contains no dot and
is not empty once normalized, `Set` (whatever the path flag) returns without error and a
lookup of the normalized key in the store then gives `val`, whatever was stored there
before; the normalized key is the key itself when the key has no surrounding
whitespace. -/
theorem Set_top_key_then_lookup (c : Config) (key : Str) (val : Value)
    (setByPath : List Bool) (hro : c.opts.Readonly = false)
    (hdot : Contains key '.' = false) (hne : Trim (TrimSpace key) ".".toList ≠ []) :
    ∃ c', c.Set key val setByPath = .returned none c' ∧
      mapLookup (Trim (TrimSpace key) ".".toList) c'.data = some val ∧
      (TrimSpace key = key → mapLookup key c'.data = some val) := by
  have h1 : Contains (Trim (TrimSpace key) ".".toList) '.' = false :=
    Contains_TrimFunc _ _ _ (Contains_TrimFunc _ _ _ hdot)
  refine ⟨_, Set_literal c key val setByPath hro hne (Or.inl h1),
    mapLookup_mapAssign_self _ _ _, ?_⟩
  intro hk
  have h2 : Trim (TrimSpace key) ".".toList = key := by
    rw [hk]
    apply TrimFunc_eq_self
    intro x hx
    rcases not_mem_of_not_Contains key '.' hdot x hx with h | h
    · exact h
    · exact absurd rfl h
  simp only
  rw [h2]
  exact mapLookup_mapAssign_self _ _ _

/-- Witness for C11: `Set("a", 2)` on `{a: [10]}` leaves `{a: 2}`. -/
theorem Set_top_key_then_lookup_witness :
    (Config.mk ⟨false⟩ [("a".toList, .arr [.scalar (.int 10)])]).Set "a".toList
        (.scalar (.int 2)) [] =
      .returned none ⟨⟨false⟩, [("a".toList, .scalar (.int 2))]⟩ ∧
    ∃ c', (Config.mk ⟨false⟩ [("a".toList, .arr [.scalar (.int 10)])]).Set "a".toList
        (.scalar (.int 2)) [] = .returned none c' ∧
      mapLookup (Trim (TrimSpace "a".toList) ".".toList) c'.data = some (.scalar (.int 2)) ∧
      (TrimSpace "a".toList = "a".toList →
        mapLookup "a".toList c'.data = some (.scalar (.int 2))) :=
  ⟨rfl, Set_top_key_then_lookup ⟨⟨false⟩, [("a".toList, .arr [.scalar (.int 10)])]⟩
    "a".toList (.scalar (.int 2)) [] rfl rfl (by decide)⟩

/-- Counterexample to C11 as stated: the keys `""` and `" a"` contain no dot; `Set("", 1)`
on the empty store fails with the empty-key error and stores nothing, and `Set(" a", 1)`
stores under `a`, so that the store has no entry for the key `" a"` itself. -/
theorem Set_top_key_lookup_fails :
    Contains "".toList '.' = false ∧
    (Config.mk ⟨false⟩ []).Set "".toList (.scalar (.int 1)) [] =
      .returned (some .emptyKey) ⟨⟨false⟩, []⟩ ∧
    mapLookup "".toList [] = none ∧
    Contains " a".toList '.' = false ∧
    (Config.mk ⟨false⟩ []).Set " a".toList (.scalar (.int 1)) [] =
      .returned none ⟨⟨false⟩, [("a".toList, .scalar (.int 1))]⟩ ∧
    mapLookup " a".toList [("a".toList, .scalar (.int 1))] = none :=
  ⟨rfl, rfl, rfl, rfl, rfl, rfl⟩

/-- C12: with the path flag passed as false, on a store that is not readonly and for a
key whose normalized form `k` is not empty, `Set` returns without error and writes `val`
as the top-level entry of the whole `k`, whatever was there before; the value stored is
`val` itself, with no nesting, and every other top-level entry (that of the first segment
of `k` included, when it differs from `k`) is what it was. -/
theorem Set_path_flag_false_is_literal (c : Config) (key : Str) (val : Value)
    (rest : List Bool) (hro : c.opts.Readonly = false)
    (hne : Trim (TrimSpace key) ".".toList ≠ []) :
    c.Set key val (false :: rest) =
        .returned none
          { c with data := mapAssign (Trim (TrimSpace key) ".".toList) val c.data } ∧
      mapLookup (Trim (TrimSpace key) ".".toList)
          (mapAssign (Trim (TrimSpace key) ".".toList) val c.data) = some val ∧
      ∀ k', k' ≠ Trim (TrimSpace key) ".".toList →
        mapLookup k' (mapAssign (Trim (TrimSpace key) ".".toList) val c.data) =
          mapLookup k' c.data :=
  ⟨Set_literal c key val (false :: rest) hro hne (Or.inr rfl),
    mapLookup_mapAssign_self _ _ _,
    fun _ hk => mapLookup_mapAssign_ne _ _ _ _ hk⟩

/-- Witness for C12: given `{a: 1}`, `Set("a.b", 2, false)` yields `{a: 1, "a.b": 2}`. -/
theorem Set_path_flag_false_is_literal_witness :
    (Config.mk ⟨false⟩ [("a".toList, .scalar (.int 1))]).Set "a.b".toList
        (.scalar (.int 2)) [false] =
      .returned none ⟨⟨false⟩,
        [("a".toList, .scalar (.int 1)), ("a.b".toList, .scalar (.int 2))]⟩ :=
  (Set_path_flag_false_is_literal ⟨⟨false⟩, [("a".toList, .scalar (.int 1))]⟩
    "a.b".toList (.scalar (.int 2)) [] rfl (by decide)).1

/-- C13: on a store that is not readonly and whose entry for the top key `t` is neither a
mapping nor a sequence, `Set` with path semantics enabled on a key that splits into `t`
and a non-empty tail path fails with the unsupported-value-type error, whose message ends
with the normalized key, and returns the store as it was, the entry for `t` included. -/
theorem Set_scalar_top_entry_unsupported (c : Config) (key t : Str) (p : List Str)
    (val : Value) (setByPath : List Bool) (s : Scalar) (hro : c.opts.Readonly = false)
    (hkey : Split (Trim (TrimSpace key) ".".toList) '.' = t :: p) (hp : p ≠ [])
    (hflag : pathDisabled setByPath = false) (hm : mapLookup t c.data = some (.scalar s)) :
    c.Set key val setByPath =
        .returned (some (.unsupportedType (Trim (TrimSpace key) ".".toList))) c ∧
      (SetError.unsupportedType (Trim (TrimSpace key) ".".toList)).Error =
        "not supported value type, cannot setting value for the key: ".toList ++
          Trim (TrimSpace key) ".".toList :=
  ⟨Set_scalar c key t p val setByPath s hro hkey hp hflag hm, rfl⟩

/-- Witness for C13: given `{a: 1}`, `Set("a.b", 2)` fails with the unsupported-value-type
error naming `a.b`. -/
theorem Set_scalar_top_entry_unsupported_witness :
    (Config.mk ⟨false⟩ [("a".toList, .scalar (.int 1))]).Set "a.b".toList
        (.scalar (.int 2)) [] =
      .returned (some (.unsupportedType "a.b".toList))
        ⟨⟨false⟩, [("a".toList, .scalar (.int 1))]⟩ ∧
    (SetError.unsupportedType "a.b".toList).Error =
      "not supported value type, cannot setting value for the key: a.b".toList :=
  Set_scalar_top_entry_unsupported ⟨⟨false⟩, [("a".toList, .scalar (.int 1))]⟩
    "a.b".toList "a".toList ["b".toList] (.scalar (.int 2)) [] (.int 1) rfl rfl (by simp)
    rfl rfl

/-- C14: whenever `Set` returns an error, the store it leaves is the store it was given
(the errors that `Set` returns here are the readonly, empty-key, array-depth and
unsupported-value-type ones). -/
theorem Set_error_leaves_store (c : Config) (key : Str) (val : Value)
    (setByPath : List Bool) (e : SetError) (c' : Config)
    (h : c.Set key val setByPath = .returned (some e) c') : c' = c := by
  unfold Config.Set at h
  simp only [mergoMerge] at h
  repeat' split at h
  all_goals simp at h
  all_goals exact h.2.symm

/-- Witness for C14: given `{a: [10, 20, 30]}`, `Set("a.x", 99)` returns the array-depth
error and the store is the one given. -/
theorem Set_error_leaves_store_witness :
    (Config.mk ⟨false⟩ [("a".toList,
        .arr [.scalar (.int 10), .scalar (.int 20), .scalar (.int 30)])]).Set
        "a.x".toList (.scalar (.int 99)) [] =
      .returned (some (.arrayDepth "a.x".toList)) ⟨⟨false⟩, [("a".toList,
        .arr [.scalar (.int 10), .scalar (.int 20), .scalar (.int 30)])]⟩ ∧
    (Config.mk ⟨false⟩ [("a".toList,
        .arr [.scalar (.int 10), .scalar (.int 20), .scalar (.int 30)])]) =
      ⟨⟨false⟩, [("a".toList,
        .arr [.scalar (.int 10), .scalar (.int 20), .scalar (.int 30)])]⟩ :=
  ⟨rfl, Set_error_leaves_store ⟨⟨false⟩, [("a".toList,
    .arr [.scalar (.int 10), .scalar (.int 20), .scalar (.int 30)])]⟩ "a.x".toList
    (.scalar (.int 99)) [] (.arrayDepth "a.x".toList) _ rfl⟩

theorem Config_data_eta (c : Config) : ({ c with data := c.data } : Config) = c := by
  cases c
  rfl

/-- On stores seen as trees of values, where no slice or map is shared between entries:
whenever `Set` returns, every top-level key other than the written one has after the call
the entry it had before, or none if it had none. -/
theorem Set_frame_of_tree_store (c : Config) (key : Str) (val : Value)
    (setByPath : List Bool) (e : Option SetError) (c' : Config)
    (h : c.Set key val setByPath = .returned e c') (k' : Str)
    (hk : k' ≠ writtenKey key setByPath) : mapLookup k' c'.data = mapLookup k' c.data := by
  unfold writtenKey at hk
  unfold Config.Set at h
  simp only [mergoMerge] at h
  split at h
  · simp only [Outcome.returned.injEq] at h
    rw [← h.2]
  · split at h
    · simp only [Outcome.returned.injEq] at h
      rw [← h.2]
    · split at h
      · rename_i hc
        simp only [Outcome.returned.injEq] at h
        rw [← h.2]
        have hc' : Contains (Trim (TrimSpace key) ".".toList) '.' = false := by simpa using hc
        simp only [hc', Bool.false_and, Bool.false_eq_true, if_false] at hk
        exact mapLookup_mapAssign_ne _ _ _ _ hk
      · split at h
        · rename_i hp
          simp only [Outcome.returned.injEq] at h
          rw [← h.2]
          simp only [hp, Bool.not_true, Bool.and_false, Bool.false_eq_true, if_false] at hk
          exact mapLookup_mapAssign_ne _ _ _ _ hk
        · rename_i hc hp
          have hc' : Contains (Trim (TrimSpace key) ".".toList) '.' = true := by simpa using hc
          have hp' : pathDisabled setByPath = false := by simpa using hp
          simp only [hc', hp', Bool.not_false, Bool.and_self, if_true] at hk
          split at h
          · exact absurd h (by simp)
          · rename_i topK paths hs
            rw [hs] at hk
            simp only [List.headD_cons] at hk
            repeat' split at h
            all_goals simp only [Outcome.returned.injEq, reduceCtorEq] at h
            all_goals first
              | (rw [← h.2]; exact mapLookup_mapAssign_ne _ _ _ _ hk)
              | rw [← h.2]

/-- C20: on a store that is not readonly and whose entry for the top key `t` is a sequence
`xs`, `Set` with path semantics enabled on a key that splits into `t` and one segment
that `Atoi` reads as an index strictly greater than the length of `xs` returns without
error and returns the very store it was given: nothing is written, the sequence under `t`
is unchanged and `val` is nowhere in the store where it was not before. -/
theorem Set_index_beyond_length_writes_nothing (c : Config) (key t k1 : Str)
    (val : Value) (setByPath : List Bool) (xs : List Value) (index : Int)
    (hro : c.opts.Readonly = false)
    (hkey : Split (Trim (TrimSpace key) ".".toList) '.' = [t, k1])
    (hflag : pathDisabled setByPath = false) (hm : mapLookup t c.data = some (.arr xs))
    (hA : Atoi k1 = some index) (hi : (xs.length : Int) < index) :
    c.Set key val setByPath = .returned none c := by
  rw [Set_arr c key t k1 [] val setByPath xs hro hkey hflag hm, hA]
  have h1 : ¬ index ≤ (xs.length : Int) := by omega
  simp only [if_true, h1, if_false]
  rw [mapAssign_of_mapLookup t (.arr xs) c.data hm, Config_data_eta]

/-- Witness for C20: given `{a: [10, 20, 30]}`, `Set("a.7", 99)` succeeds and leaves
`{a: [10, 20, 30]}`. -/
theorem Set_index_beyond_length_writes_nothing_witness :
    (Config.mk ⟨false⟩ [("a".toList,
        .arr [.scalar (.int 10), .scalar (.int 20), .scalar (.int 30)])]).Set
        "a.7".toList (.scalar (.int 99)) [] =
      .returned none ⟨⟨false⟩, [("a".toList,
        .arr [.scalar (.int 10), .scalar (.int 20), .scalar (.int 30)])]⟩ :=
  Set_index_beyond_length_writes_nothing ⟨⟨false⟩, [("a".toList,
    .arr [.scalar (.int 10), .scalar (.int 20), .scalar (.int 30)])]⟩ "a.7".toList
    "a".toList "7".toList (.scalar (.int 99)) []
    [.scalar (.int 10), .scalar (.int 20), .scalar (.int 30)] 7 rfl rfl rfl rfl rfl
    (by decide)

theorem head_dropWhile_false (f : Char → Bool) (l : Str) (r : Char)
    (h : (l.dropWhile f).head? = some r) : f r = false := by
  induction l with
  | nil => simp at h
  | cons a rest ih =>
    by_cases ha : f a = true
    · rw [List.dropWhile_cons_of_pos ha] at h
      exact ih h
    · rw [List.dropWhile_cons_of_neg ha] at h
      simp only [List.head?_cons, Option.some.injEq] at h
      rw [← h]
      simpa using ha

theorem dropWhile_of_head (f : Char → Bool) (l : Str)
    (h : ∀ r, l.head? = some r → f r = false) : l.dropWhile f = l := by
  cases l with
  | nil => rfl
  | cons a rest =>
    have ha : f a = false := h a rfl
    rw [List.dropWhile_cons_of_neg (by simp [ha])]

theorem TrimFunc_isInitial (s : Str) (f : Char → Bool) : TrimFunc s f <+: s.dropWhile f := by
  unfold TrimFunc
  have h : (s.dropWhile f).reverse.dropWhile f <:+ (s.dropWhile f).reverse :=
    List.dropWhile_suffix f
  have h2 := List.reverse_prefix.2 h
  rwa [List.reverse_reverse] at h2

theorem head?_of_initial (k l : Str) (r : Char) (hp : k <+: l) (h : k.head? = some r) :
    l.head? = some r := by
  obtain ⟨t, rfl⟩ := hp
  cases k with
  | nil => simp at h
  | cons a rest => simpa using h

/-- A trimmed string does not begin with a character of the trimmed class. -/
theorem TrimFunc_head (s : Str) (f : Char → Bool) (r : Char)
    (h : (TrimFunc s f).head? = some r) : f r = false :=
  head_dropWhile_false f s r (head?_of_initial _ _ r (TrimFunc_isInitial s f) h)

/-- A trimmed string does not end with a character of the trimmed class. -/
theorem TrimFunc_getLast (s : Str) (f : Char → Bool) (r : Char)
    (h : (TrimFunc s f).getLast? = some r) : f r = false := by
  unfold TrimFunc at h
  rw [List.getLast?_reverse] at h
  exact head_dropWhile_false f _ r h

theorem getLast?_of_suffix (k l : Str) (r : Char) (hs : k <:+ l) (h : k.getLast? = some r) :
    l.getLast? = some r := by
  obtain ⟨t, rfl⟩ := hs
  cases k with
  | nil => simp at h
  | cons a rest =>
    rw [List.getLast?_append]
    simp [h]

theorem isDot_iff (r : Char) : (".".toList.contains r = false) ↔ r ≠ '.' := by
  have e : ".".toList = ['.'] := rfl
  rw [e]
  simp

theorem Split_head_ne_nil (s : Str) (sep : Char) (hne : s ≠ [])
    (hh : s.head? ≠ some sep) : ∃ t p, Split s sep = t :: p ∧ t ≠ [] := by
  cases s with
  | nil => exact absurd rfl hne
  | cons r rest =>
    have hr : r ≠ sep := by
      intro e
      exact hh (by simp [e])
    obtain ⟨seg, segs, hs⟩ := List.exists_cons_of_ne_nil (Split_ne_nil rest sep)
    exact ⟨r :: seg, segs, by simp [Split, hr, hs], by simp⟩

theorem Split_getLast_ne_nil (s : Str) (sep : Char) (hne : s ≠ [])
    (hl : s.getLast? ≠ some sep) : (Split s sep).getLast? ≠ some [] := by
  induction s with
  | nil => exact absurd rfl hne
  | cons r rest ih =>
    cases rest with
    | nil =>
      have hr : r ≠ sep := by
        intro e
        exact hl (by simp [e])
      simp [Split, hr]
    | cons r2 rest2 =>
      have ih' := ih (by simp) (by simpa [List.getLast?_cons_cons] using hl)
      obtain ⟨seg, segs, hs⟩ :=
        List.exists_cons_of_ne_nil (Split_ne_nil (r2 :: rest2) sep)
      rw [hs] at ih'
      by_cases hr : r = sep
      · have e : Split (r :: r2 :: rest2) sep = [] :: seg :: segs := by
          rw [Split, if_pos hr, hs]
        rw [e, List.getLast?_cons_cons]
        exact ih'
      · have e : Split (r :: r2 :: rest2) sep = (r :: seg) :: segs := by
          rw [Split, if_neg hr, hs]
        rw [e]
        cases segs with
        | nil => simp
        | cons a b =>
          rw [List.getLast?_cons_cons]
          rw [List.getLast?_cons_cons] at ih'
          exact ih'

/-- C16 (as amended): a key that `Set` accepts (not empty once normalized) is split into at
least one segment, and the first and the last segment are not empty. -/
theorem Split_accepted_key (key : Str) (hne : Trim (TrimSpace key) ".".toList ≠ []) :
    ∃ t p, Split (Trim (TrimSpace key) ".".toList) '.' = t :: p ∧ t ≠ [] ∧
      (t :: p).getLast? ≠ some [] := by
  have hh : (Trim (TrimSpace key) ".".toList).head? ≠ some '.' := by
    intro h
    have := TrimFunc_head _ _ _ h
    exact absurd this (by decide)
  have hl : (Trim (TrimSpace key) ".".toList).getLast? ≠ some '.' := by
    intro h
    have := TrimFunc_getLast _ _ _ h
    exact absurd this (by decide)
  obtain ⟨t, p, hs, ht⟩ := Split_head_ne_nil _ '.' hne hh
  refine ⟨t, p, hs, ht, ?_⟩
  rw [← hs]
  exact Split_getLast_ne_nil _ '.' hne hl

/-- Witness for C16: the key `" .a.b. "` is split into the segments `a` and `b`. -/
theorem Split_accepted_key_witness :
    Split (Trim (TrimSpace " .a.b. ".toList) ".".toList) '.' = ["a".toList, "b".toList] ∧
    ∃ t p, Split (Trim (TrimSpace " .a.b. ".toList) ".".toList) '.' = t :: p ∧ t ≠ [] ∧
      (t :: p).getLast? ≠ some [] :=
  ⟨rfl, Split_accepted_key " .a.b. ".toList (by decide)⟩

/-- Counterexample to C16 as stated: the key `a..b` is accepted, its segments are `a`, the
empty string and `b`, and `Set("a..b", 1)` on the empty store creates under `a` a mapping
entry whose key is the empty string. -/
theorem Set_interior_empty_segment :
    Split (Trim (TrimSpace "a..b".toList) ".".toList) '.' =
      ["a".toList, [], "b".toList] ∧
    (Config.mk ⟨false⟩ []).Set "a..b".toList (.scalar (.int 1)) [] =
      .returned none ⟨⟨false⟩, [("a".toList,
        .smap [([], .smap [("b".toList, .scalar (.int 1))])])]⟩ :=
  ⟨rfl, rfl⟩

/-- C17 (as amended): the normalized key neither begins nor ends with a dot; it does not
begin with a whitespace character unless the key trimmed of whitespace begins with a dot,
and does not end with one unless the key trimmed of whitespace ends with a dot. -/
theorem normalized_key_ends (key : Str) :
    (Trim (TrimSpace key) ".".toList).head? ≠ some '.' ∧
      (Trim (TrimSpace key) ".".toList).getLast? ≠ some '.' ∧
      ((TrimSpace key).head? ≠ some '.' →
        ∀ r, (Trim (TrimSpace key) ".".toList).head? = some r → isSpace r = false) ∧
      ((TrimSpace key).getLast? ≠ some '.' →
        ∀ r, (Trim (TrimSpace key) ".".toList).getLast? = some r → isSpace r = false) := by
  refine ⟨?_, ?_, ?_, ?_⟩
  · intro h
    exact absurd (TrimFunc_head _ _ _ h) (by decide)
  · intro h
    exact absurd (TrimFunc_getLast _ _ _ h) (by decide)
  · intro hT r hr
    have h1 : (TrimSpace key).dropWhile (fun r => ".".toList.contains r) = TrimSpace key := by
      apply dropWhile_of_head
      intro x hx
      rw [isDot_iff]
      rintro rfl
      exact hT hx
    have h2 := head?_of_initial _ _ r (TrimFunc_isInitial (TrimSpace key) _) hr
    rw [h1] at h2
    exact TrimFunc_head key isSpace r h2
  · intro hT r hr
    have hsuf : (TrimSpace key).dropWhile (fun r => ".".toList.contains r) <:+ TrimSpace key :=
      List.dropWhile_suffix _
    have h1 : ((TrimSpace key).dropWhile (fun r => ".".toList.contains r)).reverse.dropWhile
        (fun r => ".".toList.contains r) =
        ((TrimSpace key).dropWhile (fun r => ".".toList.contains r)).reverse := by
      apply dropWhile_of_head
      intro x hx
      rw [isDot_iff]
      rintro rfl
      rw [List.head?_reverse] at hx
      exact hT (getLast?_of_suffix _ _ _ hsuf hx)
    have h2 : Trim (TrimSpace key) ".".toList =
        (TrimSpace key).dropWhile (fun r => ".".toList.contains r) := by
      unfold Trim TrimFunc
      rw [h1, List.reverse_reverse]
    rw [h2] at hr
    exact TrimFunc_getLast key isSpace r (getLast?_of_suffix _ _ _ hsuf hr)

/-- Witness for C17: the key `" .a.b. "` is normalized to `a.b`. -/
theorem normalized_key_ends_witness :
    Trim (TrimSpace " .a.b. ".toList) ".".toList = "a.b".toList ∧
    (Trim (TrimSpace " .a.b. ".toList) ".".toList).head? ≠ some '.' :=
  ⟨rfl, (normalized_key_ends " .a.b. ".toList).1⟩

/-- Counterexample to C17 as stated: the keys `". a"` and `"a ."` are accepted and
normalized to `" a"` and `"a "`, which begin and end with a space; `Set(". a", 1)` on the
empty store writes the top-level key `" a"`. -/
theorem normalized_key_keeps_inner_space :
    Trim (TrimSpace ". a".toList) ".".toList = " a".toList ∧
    Trim (TrimSpace "a .".toList) ".".toList = "a ".toList ∧
    isSpace ' ' = true ∧
    (Config.mk ⟨false⟩ []).Set ". a".toList (.scalar (.int 1)) [] =
      .returned none ⟨⟨false⟩, [(" a".toList, .scalar (.int 1))]⟩ :=
  ⟨rfl, rfl, rfl, rfl⟩

theorem foldl_assign_lookup_of_not_mem (l : List (Scalar × Value)) (acc : SMap) (k' : Str)
    (h : k' ∉ l.map (fun kv => Sprintf kv.1)) :
    mapLookup k' (l.foldl (fun dstItem kv => mapAssign (Sprintf kv.1) kv.2 dstItem) acc) =
      mapLookup k' acc := by
  induction l generalizing acc with
  | nil => rfl
  | cons kv rest ih =>
    simp only [List.map_cons, List.mem_cons, not_or] at h
    rw [List.foldl_cons, ih _ h.2, mapLookup_mapAssign_ne _ _ _ _ h.1]

theorem foldl_assign_lookup_of_mem (l : List (Scalar × Value)) (acc : SMap)
    (hnd : (l.map (fun kv => Sprintf kv.1)).Nodup) (kv : Scalar × Value) (hkv : kv ∈ l) :
    mapLookup (Sprintf kv.1)
        (l.foldl (fun dstItem kv => mapAssign (Sprintf kv.1) kv.2 dstItem) acc) =
      some kv.2 := by
  induction l generalizing acc with
  | nil => simp at hkv
  | cons kv0 rest ih =>
    simp only [List.map_cons, List.nodup_cons] at hnd
    rw [List.foldl_cons]
    rcases List.mem_cons.1 hkv with h | h
    · subst h
      rw [foldl_assign_lookup_of_not_mem rest _ _ hnd.1, mapLookup_mapAssign_self]
    · exact ih _ hnd.2 h

/-- The merge of a chain leaves at the end of the path the override merge of what the
destination held there with the leaf. -/
theorem mergeValue_chain_at (val : Value) (p : List Str) (d : Option Value) :
    getAt (mergeValue d (nested p val)) (strKeys p) =
      some (mergeValue (d.bind (fun D => getAt D (strKeys p))) val) := by
  induction p generalizing d with
  | nil =>
    simp only [nested, strKeys, List.map_nil]
    cases d <;> rfl
  | cons s r ih =>
    by_cases hm : ∃ D, d = some D ∧ D.isMapping = true
    · obtain ⟨D, rfl, hD⟩ := hm
      simp only [Option.some_bind]
      cases D with
      | scalar x => simp [Value.isMapping] at hD
      | arr xs => simp [Value.isMapping] at hD
      | smap dm =>
        simp only [nested, strKeys, List.map_cons]
        rw [mergeValue_smap_smap, deepMerge_single, getAt_smap_str, mapLookup_mapAssign_self,
          getAt_smap_str]
        simp only [Option.some_bind]
        exact ih _
      | imap dm =>
        simp only [nested, strKeys, List.map_cons]
        rw [mergeValue_imap_smap, deepMergeIntoIMap_single, getAt_imap_cons,
          imapLookup_imapAssign_self, getAt_imap_cons]
        simp only [Option.some_bind]
        exact ih _
    · have hnm : ∀ w, d = some w → w.isMapping = false := by
        intro w hw
        by_contra hc
        exact hm ⟨w, hw, by simpa using hc⟩
      rw [mergeValue_of_dst_not_mapping d _ hnm, getAt_nested_self (s :: r) val]
      have hnone : d.bind (fun D => getAt D (strKeys (s :: r))) = none := by
        cases d with
        | none => rfl
        | some D =>
          simp only [Option.some_bind, strKeys, List.map_cons]
          exact getAt_cons_of_not_mapping D _ _ (hnm D rfl)
      rw [hnone, mergeValue_of_dst_not_mapping none val (by simp)]

/-- C18: on a store that is not readonly and whose entry for the top key `t` is a mapping
`im` with arbitrary keys whose string forms are pairwise distinct, `Set` with path
semantics enabled on a key that splits into `t` and the tail path `s :: r` returns without
error and stores under `t` a string-keyed mapping `merged`. The string-keyed copy of `im`
holds every entry of `im` under the string form of its key, and every such entry whose
string form is not `s` is in `merged` as it was. Deep in the structure, through
mappings of either kind, every position that branches off the tail path holds in `merged`
what it held in the copy; the position that the tail path addresses holds the override
merge of what the copy held there with `val`; and it holds `val` itself when `val` is not
a mapping or the copy held no mapping there. -/
theorem Set_arbitrary_keyed_mapping (c : Config) (key t s : Str) (r : List Str)
    (val : Value) (setByPath : List Bool) (im : List (Scalar × Value))
    (hro : c.opts.Readonly = false)
    (hkey : Split (Trim (TrimSpace key) ".".toList) '.' = t :: s :: r)
    (hflag : pathDisabled setByPath = false) (hm : mapLookup t c.data = some (.imap im))
    (hnd : (im.map (fun kv => Sprintf kv.1)).Nodup) :
    ∃ merged, c.Set key val setByPath =
        .returned none { c with data := mapAssign t (.smap merged) c.data } ∧
      (∀ kv ∈ im, mapLookup (Sprintf kv.1) (stringifyKeys im) = some kv.2) ∧
      (∀ kv ∈ im, Sprintf kv.1 ≠ s → mapLookup (Sprintf kv.1) merged = some kv.2) ∧
      (∀ q, ¬ q <+: strKeys (s :: r) → ¬ strKeys (s :: r) <+: q →
        getAt (.smap merged) q = getAt (.smap (stringifyKeys im)) q) ∧
      getAt (.smap merged) (strKeys (s :: r)) =
        some (mergeValue (getAt (.smap (stringifyKeys im)) (strKeys (s :: r))) val) ∧
      ((val.isMapping = false ∨
          ∀ w, getAt (.smap (stringifyKeys im)) (strKeys (s :: r)) = some w →
            w.isMapping = false) →
        getAt (.smap merged) (strKeys (s :: r)) = some val) := by
  have hcopy : ∀ kv ∈ im, mapLookup (Sprintf kv.1) (stringifyKeys im) = some kv.2 :=
    fun kv hkv => foldl_assign_lookup_of_mem im [] hnd kv hkv
  refine ⟨_, Set_imap c key t (s :: r) val setByPath im hro hkey (by simp) hflag hm,
    hcopy, ?_, ?_, ?_, ?_⟩
  · intro kv hkv hne
    rw [buildValueByPath_cons, deepMerge_single, mapLookup_mapAssign_ne _ _ _ _ hne]
    exact hcopy kv hkv
  · intro q h1 h2
    rw [smap_deepMerge_chain _ (s :: r) (by simp) val]
    exact mergeValue_chain_frame val (s :: r) _ q h1 h2
  · rw [smap_deepMerge_chain _ (s :: r) (by simp) val]
    exact mergeValue_chain_at val (s :: r) _
  · intro h
    rw [smap_deepMerge_chain _ (s :: r) (by simp) val]
    exact mergeValue_chain_write val (s :: r) _ h

/-- Witness for C18: given `{a: {1: 7, "x": {"y": 1}}}` with arbitrary keys at both
levels, `Set("a.x.z", 2)` yields `{a: {"1": 7, "x": {"y": 1, "z": 2}}}`, string-keyed
under `a`. -/
theorem Set_arbitrary_keyed_mapping_witness :
    (Config.mk ⟨false⟩ [("a".toList, .imap [(.int 1, .scalar (.int 7)),
        (.str "x".toList, .imap [(.str "y".toList, .scalar (.int 1))])])]).Set
        "a.x.z".toList (.scalar (.int 2)) [] =
      .returned none ⟨⟨false⟩, [("a".toList, .smap [("1".toList, .scalar (.int 7)),
        ("x".toList, .imap [(.str "y".toList, .scalar (.int 1)),
          (.str "z".toList, .scalar (.int 2))])])]⟩ ∧
    ∃ merged, (Config.mk ⟨false⟩ [("a".toList, .imap [(.int 1, .scalar (.int 7)),
        (.str "x".toList, .imap [(.str "y".toList, .scalar (.int 1))])])]).Set
        "a.x.z".toList (.scalar (.int 2)) [] =
        .returned none ⟨⟨false⟩, mapAssign "a".toList (.smap merged)
          [("a".toList, .imap [(.int 1, .scalar (.int 7)),
            (.str "x".toList, .imap [(.str "y".toList, .scalar (.int 1))])])]⟩ ∧
      (∀ kv ∈ [(Scalar.int 1, Value.scalar (.int 7)),
          (.str "x".toList, .imap [(.str "y".toList, .scalar (.int 1))])],
        mapLookup (Sprintf kv.1) (stringifyKeys [(.int 1, .scalar (.int 7)),
          (.str "x".toList, .imap [(.str "y".toList, .scalar (.int 1))])]) = some kv.2) ∧
      (∀ kv ∈ [(Scalar.int 1, Value.scalar (.int 7)),
          (.str "x".toList, .imap [(.str "y".toList, .scalar (.int 1))])],
        Sprintf kv.1 ≠ "x".toList → mapLookup (Sprintf kv.1) merged = some kv.2) ∧
      (∀ q, ¬ q <+: strKeys ["x".toList, "z".toList] →
        ¬ strKeys ["x".toList, "z".toList] <+: q →
        getAt (.smap merged) q = getAt (.smap (stringifyKeys [(.int 1, .scalar (.int 7)),
          (.str "x".toList, .imap [(.str "y".toList, .scalar (.int 1))])])) q) ∧
      getAt (.smap merged) (strKeys ["x".toList, "z".toList]) =
        some (mergeValue (getAt (.smap (stringifyKeys [(.int 1, .scalar (.int 7)),
          (.str "x".toList, .imap [(.str "y".toList, .scalar (.int 1))])]))
          (strKeys ["x".toList, "z".toList])) (.scalar (.int 2))) ∧
      ((Value.isMapping (.scalar (.int 2)) = false ∨
          ∀ w, getAt (.smap (stringifyKeys [(.int 1, .scalar (.int 7)),
            (.str "x".toList, .imap [(.str "y".toList, .scalar (.int 1))])]))
            (strKeys ["x".toList, "z".toList]) = some w → w.isMapping = false) →
        getAt (.smap merged) (strKeys ["x".toList, "z".toList]) = some (.scalar (.int 2))) :=
  ⟨rfl, Set_arbitrary_keyed_mapping ⟨⟨false⟩, [("a".toList,
    .imap [(.int 1, .scalar (.int 7)),
      (.str "x".toList, .imap [(.str "y".toList, .scalar (.int 1))])])]⟩
    "a.x.z".toList "a".toList "x".toList ["z".toList] (.scalar (.int 2)) []
    [(.int 1, .scalar (.int 7)),
      (.str "x".toList, .imap [(.str "y".toList, .scalar (.int 1))])] rfl rfl rfl rfl
    (by decide)⟩

theorem imapAssign_of_imapLookup (k : Scalar) (v : Value) (m : IMap)
    (h : imapLookup k m = some v) : imapAssign k v m = m := by
  induction m with
  | nil => simp [imapLookup] at h
  | cons kv rest ih =>
    obtain ⟨k', v'⟩ := kv
    by_cases hk : k' = k
    · simp only [imapLookup, hk, if_true, Option.some.injEq] at h
      simp [imapAssign, hk, h]
    · simp only [imapLookup, hk, if_false] at h
      simp [imapAssign, hk, ih h]

theorem deepMerge_nil (dst : SMap) : deepMerge dst [] = dst := by
  simp [deepMerge]

theorem deepMerge_cons (dst : SMap) (k : Str) (sv : Value) (rest : SMap) :
    deepMerge dst ((k, sv) :: rest) =
      deepMerge (mapAssign k (mergeValue (mapLookup k dst) sv) dst) rest := by
  simp [deepMerge]

theorem deepMergeIntoIMap_nil (dst : IMap) : deepMergeIntoIMap dst [] = dst := by
  simp [deepMergeIntoIMap]

theorem deepMergeIntoIMap_cons (dst : IMap) (k : Str) (sv : Value) (rest : SMap) :
    deepMergeIntoIMap dst ((k, sv) :: rest) =
      deepMergeIntoIMap
        (imapAssign (.str k) (mergeValue (imapLookup (.str k) dst) sv) dst) rest := by
  simp [deepMergeIntoIMap]

theorem deepMergeIMap_nil (dst : IMap) : deepMergeIMap dst [] = dst := by
  simp [deepMergeIMap]

theorem deepMergeIMap_cons (dst : IMap) (k : Scalar) (sv : Value) (rest : IMap) :
    deepMergeIMap dst ((k, sv) :: rest) =
      deepMergeIMap (imapAssign k (mergeValue (imapLookup k dst) sv) dst) rest := by
  simp [deepMergeIMap]

theorem keysDistinct_smap (m : SMap) :
    (Value.smap m).keysDistinct = true ↔
      (m.map Prod.fst).Nodup ∧ entriesKeysDistinct m = true := by
  simp [Value.keysDistinct]

theorem keysDistinct_imap (m : IMap) :
    (Value.imap m).keysDistinct = true ↔
      (m.map Prod.fst).Nodup ∧ ientriesKeysDistinct m = true := by
  simp [Value.keysDistinct]

theorem entriesKeysDistinct_mem (m : SMap) (h : entriesKeysDistinct m = true)
    (kv : Str × Value) (hkv : kv ∈ m) : kv.2.keysDistinct = true := by
  induction m with
  | nil => simp at hkv
  | cons a rest ih =>
    obtain ⟨k, v⟩ := a
    simp only [entriesKeysDistinct, Bool.and_eq_true] at h
    rcases List.mem_cons.1 hkv with e | e
    · rw [e]
      exact h.1
    · exact ih h.2 e

theorem ientriesKeysDistinct_mem (m : IMap) (h : ientriesKeysDistinct m = true)
    (kv : Scalar × Value) (hkv : kv ∈ m) : kv.2.keysDistinct = true := by
  induction m with
  | nil => simp at hkv
  | cons a rest ih =>
    obtain ⟨k, v⟩ := a
    simp only [ientriesKeysDistinct, Bool.and_eq_true] at h
    rcases List.mem_cons.1 hkv with e | e
    · rw [e]
      exact h.1
    · exact ih h.2 e

theorem mapLookup_of_mem_nodup (m : SMap) (hnd : (m.map Prod.fst).Nodup)
    (kv : Str × Value) (hkv : kv ∈ m) : mapLookup kv.1 m = some kv.2 := by
  induction m with
  | nil => simp at hkv
  | cons a rest ih =>
    obtain ⟨k, v⟩ := a
    simp only [List.map_cons, List.nodup_cons] at hnd
    rcases List.mem_cons.1 hkv with e | e
    · rw [e]
      simp [mapLookup]
    · have hne : k ≠ kv.1 := by
        intro hk
        exact hnd.1 (hk ▸ List.mem_map_of_mem Prod.fst e)
      simp only [mapLookup, hne, if_false]
      exact ih hnd.2 e

theorem imapLookup_of_mem_nodup (m : IMap) (hnd : (m.map Prod.fst).Nodup)
    (kv : Scalar × Value) (hkv : kv ∈ m) : imapLookup kv.1 m = some kv.2 := by
  induction m with
  | nil => simp at hkv
  | cons a rest ih =>
    obtain ⟨k, v⟩ := a
    simp only [List.map_cons, List.nodup_cons] at hnd
    rcases List.mem_cons.1 hkv with e | e
    · rw [e]
      simp [imapLookup]
    · have hne : k ≠ kv.1 := by
        intro hk
        exact hnd.1 (hk ▸ List.mem_map_of_mem Prod.fst e)
      simp only [imapLookup, hne, if_false]
      exact ih hnd.2 e

theorem deepMerge_lookup_of_not_mem (src dst : SMap) (k : Str)
    (h : k ∉ src.map Prod.fst) : mapLookup k (deepMerge dst src) = mapLookup k dst := by
  induction src generalizing dst with
  | nil => rw [deepMerge_nil]
  | cons a rest ih =>
    obtain ⟨k0, sv⟩ := a
    simp only [List.map_cons, List.mem_cons, not_or] at h
    rw [deepMerge_cons, ih _ h.2, mapLookup_mapAssign_ne _ _ _ _ h.1]

theorem deepMerge_lookup_of_mem (src dst : SMap) (hnd : (src.map Prod.fst).Nodup)
    (kv : Str × Value) (hkv : kv ∈ src) :
    mapLookup kv.1 (deepMerge dst src) = some (mergeValue (mapLookup kv.1 dst) kv.2) := by
  induction src generalizing dst with
  | nil => simp at hkv
  | cons a rest ih =>
    obtain ⟨k0, sv⟩ := a
    simp only [List.map_cons, List.nodup_cons] at hnd
    rw [deepMerge_cons]
    rcases List.mem_cons.1 hkv with e | e
    · rw [e]
      simp only
      rw [deepMerge_lookup_of_not_mem rest _ k0 hnd.1, mapLookup_mapAssign_self]
    · have hne : kv.1 ≠ k0 := by
        intro hk
        exact hnd.1 (hk ▸ List.mem_map_of_mem Prod.fst e)
      rw [ih _ hnd.2 e, mapLookup_mapAssign_ne _ _ _ _ hne]

/-- Merging a source whose every entry is already merged into the destination changes
nothing. -/
theorem deepMerge_of_fixed (src E : SMap)
    (h : ∀ kv ∈ src, ∃ X, mapLookup kv.1 E = some X ∧ mergeValue (some X) kv.2 = X) :
    deepMerge E src = E := by
  induction src with
  | nil => rw [deepMerge_nil]
  | cons a rest ih =>
    obtain ⟨k0, sv⟩ := a
    obtain ⟨X, hX, hm⟩ := h (k0, sv) (by simp)
    rw [deepMerge_cons, hX, hm, mapAssign_of_mapLookup k0 X E hX]
    exact ih (fun kv hkv => h kv (List.mem_cons_of_mem _ hkv))

theorem deepMergeIntoIMap_lookup_of_not_mem (src : SMap) (dst : IMap) (k : Scalar)
    (h : k ∉ src.map (fun kv => Scalar.str kv.1)) :
    imapLookup k (deepMergeIntoIMap dst src) = imapLookup k dst := by
  induction src generalizing dst with
  | nil => rw [deepMergeIntoIMap_nil]
  | cons a rest ih =>
    obtain ⟨k0, sv⟩ := a
    simp only [List.map_cons, List.mem_cons, not_or] at h
    rw [deepMergeIntoIMap_cons, ih _ h.2, imapLookup_imapAssign_ne _ _ _ _ h.1]

theorem deepMergeIntoIMap_lookup_of_mem (src : SMap) (dst : IMap)
    (hnd : (src.map Prod.fst).Nodup) (kv : Str × Value) (hkv : kv ∈ src) :
    imapLookup (.str kv.1) (deepMergeIntoIMap dst src) =
      some (mergeValue (imapLookup (.str kv.1) dst) kv.2) := by
  induction src generalizing dst with
  | nil => simp at hkv
  | cons a rest ih =>
    obtain ⟨k0, sv⟩ := a
    simp only [List.map_cons, List.nodup_cons] at hnd
    rw [deepMergeIntoIMap_cons]
    rcases List.mem_cons.1 hkv with e | e
    · rw [e]
      simp only
      rw [deepMergeIntoIMap_lookup_of_not_mem rest _ (.str k0) (by
        intro hmem
        obtain ⟨kv', hkv', he⟩ := List.mem_map.1 hmem
        have hk : kv'.1 = k0 := by simpa using he
        exact hnd.1 (hk ▸ List.mem_map_of_mem Prod.fst hkv')), imapLookup_imapAssign_self]
    · have hne : Scalar.str kv.1 ≠ Scalar.str k0 := by
        intro hk
        have hk' : kv.1 = k0 := by simpa using hk
        exact hnd.1 (hk' ▸ List.mem_map_of_mem Prod.fst e)
      rw [ih _ hnd.2 e, imapLookup_imapAssign_ne _ _ _ _ hne]

theorem deepMergeIntoIMap_of_fixed (src : SMap) (E : IMap)
    (h : ∀ kv ∈ src, ∃ X, imapLookup (.str kv.1) E = some X ∧ mergeValue (some X) kv.2 = X) :
    deepMergeIntoIMap E src = E := by
  induction src with
  | nil => rw [deepMergeIntoIMap_nil]
  | cons a rest ih =>
    obtain ⟨k0, sv⟩ := a
    obtain ⟨X, hX, hm⟩ := h (k0, sv) (by simp)
    rw [deepMergeIntoIMap_cons, hX, hm, imapAssign_of_imapLookup (.str k0) X E hX]
    exact ih (fun kv hkv => h kv (List.mem_cons_of_mem _ hkv))

theorem deepMergeIMap_lookup_of_not_mem (src dst : IMap) (k : Scalar)
    (h : k ∉ src.map Prod.fst) : imapLookup k (deepMergeIMap dst src) = imapLookup k dst := by
  induction src generalizing dst with
  | nil => rw [deepMergeIMap_nil]
  | cons a rest ih =>
    obtain ⟨k0, sv⟩ := a
    simp only [List.map_cons, List.mem_cons, not_or] at h
    rw [deepMergeIMap_cons, ih _ h.2, imapLookup_imapAssign_ne _ _ _ _ h.1]

theorem deepMergeIMap_lookup_of_mem (src dst : IMap) (hnd : (src.map Prod.fst).Nodup)
    (kv : Scalar × Value) (hkv : kv ∈ src) :
    imapLookup kv.1 (deepMergeIMap dst src) =
      some (mergeValue (imapLookup kv.1 dst) kv.2) := by
  induction src generalizing dst with
  | nil => simp at hkv
  | cons a rest ih =>
    obtain ⟨k0, sv⟩ := a
    simp only [List.map_cons, List.nodup_cons] at hnd
    rw [deepMergeIMap_cons]
    rcases List.mem_cons.1 hkv with e | e
    · rw [e]
      simp only
      rw [deepMergeIMap_lookup_of_not_mem rest _ k0 hnd.1, imapLookup_imapAssign_self]
    · have hne : kv.1 ≠ k0 := by
        intro hk
        exact hnd.1 (hk ▸ List.mem_map_of_mem Prod.fst e)
      rw [ih _ hnd.2 e, imapLookup_imapAssign_ne _ _ _ _ hne]

theorem deepMergeIMap_of_fixed (src E : IMap)
    (h : ∀ kv ∈ src, ∃ X, imapLookup kv.1 E = some X ∧ mergeValue (some X) kv.2 = X) :
    deepMergeIMap E src = E := by
  induction src with
  | nil => rw [deepMergeIMap_nil]
  | cons a rest ih =>
    obtain ⟨k0, sv⟩ := a
    obtain ⟨X, hX, hm⟩ := h (k0, sv) (by simp)
    rw [deepMergeIMap_cons, hX, hm, imapAssign_of_imapLookup k0 X E hX]
    exact ih (fun kv hkv => h kv (List.mem_cons_of_mem _ hkv))

theorem sizeOf_entry_lt (sm : SMap) (kv : Str × Value) (hkv : kv ∈ sm) :
    sizeOf kv.2 < sizeOf (Value.smap sm) := by
  have h1 := List.sizeOf_lt_of_mem hkv
  obtain ⟨k, v⟩ := kv
  simp only [Prod.mk.sizeOf_spec] at h1
  simp only [Value.smap.sizeOf_spec]
  omega

theorem sizeOf_ientry_lt (sm : IMap) (kv : Scalar × Value) (hkv : kv ∈ sm) :
    sizeOf kv.2 < sizeOf (Value.imap sm) := by
  have h1 := List.sizeOf_lt_of_mem hkv
  obtain ⟨k, v⟩ := kv
  simp only [Prod.mk.sizeOf_spec] at h1
  simp only [Value.imap.sizeOf_spec]
  omega

theorem mergeValue_idem_aux (n : Nat) : ∀ N : Value, sizeOf N = n → N.keysDistinct = true →
    (∀ d, mergeValue (some (mergeValue d N)) N = mergeValue d N) ∧
      mergeValue (some N) N = N := by
  induction n using Nat.strong_induction_on with
  | _ n ih =>
    intro N hn hN
    cases N with
    | scalar s => simp [mergeValue]
    | arr xs => simp [mergeValue]
    | smap sm =>
      obtain ⟨hnd, hent⟩ := (keysDistinct_smap sm).1 hN
      have hrec : ∀ kv ∈ sm,
          (∀ d, mergeValue (some (mergeValue d kv.2)) kv.2 = mergeValue d kv.2) ∧
            mergeValue (some kv.2) kv.2 = kv.2 := by
        intro kv hkv
        exact ih (sizeOf kv.2) (by rw [← hn]; exact sizeOf_entry_lt sm kv hkv) kv.2 rfl
          (entriesKeysDistinct_mem sm hent kv hkv)
      have hself : deepMerge sm sm = sm := by
        apply deepMerge_of_fixed
        intro kv hkv
        exact ⟨kv.2, mapLookup_of_mem_nodup sm hnd kv hkv, (hrec kv hkv).2⟩
      have htwice : ∀ dm, deepMerge (deepMerge dm sm) sm = deepMerge dm sm := by
        intro dm
        apply deepMerge_of_fixed
        intro kv hkv
        exact ⟨_, deepMerge_lookup_of_mem sm dm hnd kv hkv, (hrec kv hkv).1 _⟩
      have htwiceI : ∀ dm,
          deepMergeIntoIMap (deepMergeIntoIMap dm sm) sm = deepMergeIntoIMap dm sm := by
        intro dm
        apply deepMergeIntoIMap_of_fixed
        intro kv hkv
        exact ⟨_, deepMergeIntoIMap_lookup_of_mem sm dm hnd kv hkv, (hrec kv hkv).1 _⟩
      refine ⟨?_, ?_⟩
      · intro d
        by_cases hd : ∃ D, d = some D ∧ D.isMapping = true
        · obtain ⟨D, rfl, hD⟩ := hd
          cases D with
          | scalar x => simp [Value.isMapping] at hD
          | arr xs => simp [Value.isMapping] at hD
          | smap dm => rw [mergeValue_smap_smap, mergeValue_smap_smap, htwice]
          | imap dm => rw [mergeValue_imap_smap, mergeValue_imap_smap, htwiceI]
        · have hnm : ∀ w, d = some w → w.isMapping = false := by
            intro w hw
            by_contra hc
            exact hd ⟨w, hw, by simpa using hc⟩
          rw [mergeValue_of_dst_not_mapping d _ hnm, mergeValue_smap_smap, hself]
      · rw [mergeValue_smap_smap, hself]
    | imap sm =>
      obtain ⟨hnd, hent⟩ := (keysDistinct_imap sm).1 hN
      have hrec : ∀ kv ∈ sm,
          (∀ d, mergeValue (some (mergeValue d kv.2)) kv.2 = mergeValue d kv.2) ∧
            mergeValue (some kv.2) kv.2 = kv.2 := by
        intro kv hkv
        exact ih (sizeOf kv.2) (by rw [← hn]; exact sizeOf_ientry_lt sm kv hkv) kv.2 rfl
          (ientriesKeysDistinct_mem sm hent kv hkv)
      have hself : deepMergeIMap sm sm = sm := by
        apply deepMergeIMap_of_fixed
        intro kv hkv
        exact ⟨kv.2, imapLookup_of_mem_nodup sm hnd kv hkv, (hrec kv hkv).2⟩
      have htwice : ∀ dm, deepMergeIMap (deepMergeIMap dm sm) sm = deepMergeIMap dm sm := by
        intro dm
        apply deepMergeIMap_of_fixed
        intro kv hkv
        exact ⟨_, deepMergeIMap_lookup_of_mem sm dm hnd kv hkv, (hrec kv hkv).1 _⟩
      refine ⟨?_, ?_⟩
      · intro d
        by_cases hd : ∃ D, d = some D ∧ D.isMapping = true
        · obtain ⟨D, rfl, hD⟩ := hd
          cases D with
          | scalar x => simp [Value.isMapping] at hD
          | arr xs => simp [Value.isMapping] at hD
          | smap dm => rw [mergeValue_smap_imap, mergeValue_imap_imap, htwice]
          | imap dm => rw [mergeValue_imap_imap, mergeValue_imap_imap, htwice]
        · have hnm : ∀ w, d = some w → w.isMapping = false := by
            intro w hw
            by_contra hc
            exact hd ⟨w, hw, by simpa using hc⟩
          rw [mergeValue_of_dst_not_mapping d _ hnm, mergeValue_imap_imap, hself]
      · rw [mergeValue_imap_imap, hself]

/-- The override merge applied twice with the same source gives what it gives once, and a
value merged into itself is unchanged, when the mappings of the source hold no key
twice. -/
theorem mergeValue_idem (N : Value) (hN : N.keysDistinct = true) :
    (∀ d, mergeValue (some (mergeValue d N)) N = mergeValue d N) ∧
      mergeValue (some N) N = N :=
  mergeValue_idem_aux (sizeOf N) N rfl hN

theorem nested_keysDistinct (r : List Str) (val : Value) (hv : val.keysDistinct = true) :
    (nested r val).keysDistinct = true := by
  induction r with
  | nil => exact hv
  | cons s r ih =>
    simp only [nested]
    rw [keysDistinct_smap]
    exact ⟨by simp, by simp [entriesKeysDistinct, ih]⟩

/-- Merging the same chain a second time changes nothing. -/
theorem deepMerge_chain_idem (val : Value) (hv : val.keysDistinct = true) (p : List Str)
    (hp : p ≠ []) (m : SMap) :
    deepMerge (deepMerge m (buildValueByPath p val)) (buildValueByPath p val) =
      deepMerge m (buildValueByPath p val) := by
  obtain ⟨s, r, rfl⟩ := List.exists_cons_of_ne_nil hp
  rw [buildValueByPath_cons, deepMerge_single, deepMerge_single, mapLookup_mapAssign_self,
    (mergeValue_idem _ (nested_keysDistinct r val hv)).1, mapAssign_idem]

/-- Merging a chain into itself changes nothing. -/
theorem deepMerge_chain_self (val : Value) (hv : val.keysDistinct = true) (p : List Str)
    (hp : p ≠ []) :
    deepMerge (buildValueByPath p val) (buildValueByPath p val) = buildValueByPath p val := by
  obtain ⟨s, r, rfl⟩ := List.exists_cons_of_ne_nil hp
  rw [buildValueByPath_cons, deepMerge_single, mapLookup_single, if_pos rfl,
    (mergeValue_idem _ (nested_keysDistinct r val hv)).2]
  simp [mapAssign]

theorem returned_inj {e : Option SetError} {a b : Config}
    (h : Outcome.returned e a = Outcome.returned e b) : a = b := by
  injection h

/-- C15: when `Set` succeeds on a value whose mappings hold no key twice (as Go maps do),
the same call on the store it leaves succeeds again and leaves that same store: on the
literal route, on a fresh top key, on a sequence index and on the merge routes. -/
theorem Set_idempotent (c : Config) (key : Str) (val : Value) (setByPath : List Bool)
    (c1 : Config) (hv : val.keysDistinct = true)
    (h : c.Set key val setByPath = .returned none c1) :
    c1.Set key val setByPath = .returned none c1 := by
  have hro : c.opts.Readonly = false := by
    by_contra hr
    have hr' : c.opts.Readonly = true := by simpa using hr
    rw [Set_of_readonly c key val setByPath hr'] at h
    simp at h
  have hne : Trim (TrimSpace key) ".".toList ≠ [] := by
    intro he
    unfold Config.Set at h
    simp only [hro, he] at h
    simp at h
  by_cases hlit : Contains (Trim (TrimSpace key) ".".toList) '.' = false ∨
      pathDisabled setByPath = true
  · rw [Set_literal c key val setByPath hro hne hlit] at h
    have hc1 := returned_inj h
    subst hc1
    rw [Set_literal ⟨c.opts, mapAssign (Trim (TrimSpace key) ".".toList) val c.data⟩ key val
      setByPath hro hne hlit]
    simp only [mapAssign_idem]
  · have hc : Contains (Trim (TrimSpace key) ".".toList) '.' = true := by
      by_contra hcc
      exact hlit (Or.inl (by simpa using hcc))
    have hf : pathDisabled setByPath = false := by
      by_contra hcc
      exact hlit (Or.inr (by simpa using hcc))
    obtain ⟨t, k1, p, hs⟩ := Split_of_Contains _ _ hc
    cases hl : mapLookup t c.data with
    | none =>
      rw [Set_fresh c key t (k1 :: p) val setByPath hro hs (by simp) hf hl] at h
      have hc1 := returned_inj h
      subst hc1
      rw [Set_smap ⟨c.opts, mapAssign t (.smap (buildValueByPath (k1 :: p) val)) c.data⟩ key t
        (k1 :: p) val setByPath (buildValueByPath (k1 :: p) val) hro hs
        (by simp) hf (mapLookup_mapAssign_self _ _ _)]
      simp only [deepMerge_chain_self val hv _ (List.cons_ne_nil k1 p), mapAssign_idem]
    | some w =>
      cases w with
      | scalar s =>
        rw [Set_scalar c key t (k1 :: p) val setByPath s hro hs (by simp) hf hl] at h
        simp at h
      | smap m =>
        rw [Set_smap c key t (k1 :: p) val setByPath m hro hs (by simp) hf hl] at h
        have hc1 := returned_inj h
        subst hc1
        rw [Set_smap
          ⟨c.opts, mapAssign t (.smap (deepMerge m (buildValueByPath (k1 :: p) val))) c.data⟩
          key t (k1 :: p) val setByPath _ hro hs (by simp) hf
          (mapLookup_mapAssign_self _ _ _)]
        simp only [deepMerge_chain_idem val hv _ (List.cons_ne_nil k1 p), mapAssign_idem]
      | imap im =>
        rw [Set_imap c key t (k1 :: p) val setByPath im hro hs (by simp) hf hl] at h
        have hc1 := returned_inj h
        subst hc1
        rw [Set_smap
          ⟨c.opts, mapAssign t
            (.smap (deepMerge (stringifyKeys im) (buildValueByPath (k1 :: p) val))) c.data⟩
          key t (k1 :: p) val setByPath _ hro hs (by simp) hf
          (mapLookup_mapAssign_self _ _ _)]
        simp only [deepMerge_chain_idem val hv _ (List.cons_ne_nil k1 p), mapAssign_idem]
      | arr xs =>
        rw [Set_arr c key t k1 p val setByPath xs hro hs hf hl] at h
        cases hA : Atoi k1 with
        | none =>
          rw [hA] at h
          simp at h
        | some index =>
          rw [hA] at h
          simp only at h
          by_cases hp : p = []
          · subst hp
            simp only [if_true] at h
            by_cases h1 : index ≤ (xs.length : Int)
            · simp only [h1, if_true] at h
              by_cases h2 : 0 ≤ index ∧ index < (xs.length : Int)
              · simp only [h2, and_self, if_true] at h
                have hc1 := returned_inj h
                subst hc1
                rw [Set_arr ⟨c.opts, mapAssign t (.arr (xs.set index.toNat val)) c.data⟩ key t
                  k1 [] val setByPath (xs.set index.toNat val) hro hs hf
                  (mapLookup_mapAssign_self _ _ _), hA]
                simp only [List.length_set, if_true, h1, h2, and_self, List.set_set,
                  mapAssign_idem]
              · simp only [h2, if_false] at h
                simp at h
            · simp only [h1, if_false] at h
              have hc1 := returned_inj h
              subst hc1
              rw [Set_arr ⟨c.opts, mapAssign t (.arr xs) c.data⟩ key t k1 [] val setByPath xs
                hro hs hf (mapLookup_mapAssign_self _ _ _), hA]
              simp only [if_true, h1, if_false, mapAssign_idem]
          · simp only [hp, if_false] at h
            simp at h

/-- Witness for C15: from `{a: {x: 1}}`, `Set("a.y", 2)` gives `{a: {x: 1, y: 2}}`, and
the same call on that store gives it again. -/
theorem Set_idempotent_witness :
    (Config.mk ⟨false⟩ [("a".toList, .smap [("x".toList, .scalar (.int 1))])]).Set
        "a.y".toList (.scalar (.int 2)) [] =
      .returned none ⟨⟨false⟩, [("a".toList,
        .smap [("x".toList, .scalar (.int 1)), ("y".toList, .scalar (.int 2))])]⟩ ∧
    (Config.mk ⟨false⟩ [("a".toList,
        .smap [("x".toList, .scalar (.int 1)), ("y".toList, .scalar (.int 2))])]).Set
        "a.y".toList (.scalar (.int 2)) [] =
      .returned none ⟨⟨false⟩, [("a".toList,
        .smap [("x".toList, .scalar (.int 1)), ("y".toList, .scalar (.int 2))])]⟩ :=
  ⟨rfl, Set_idempotent ⟨⟨false⟩, [("a".toList, .smap [("x".toList, .scalar (.int 1))])]⟩
    "a.y".toList (.scalar (.int 2)) []
    ⟨⟨false⟩, [("a".toList,
      .smap [("x".toList, .scalar (.int 1)), ("y".toList, .scalar (.int 2))])]⟩ rfl rfl⟩

theorem refLookup_refAssign_ne (k k' : Str) (v : RVal) (m : List (Str × RVal))
    (h : k' ≠ k) : refLookup k' (refAssign k v m) = refLookup k' m := by
  induction m with
  | nil => simp [refAssign, refLookup, Ne.symm h]
  | cons kv rest ih =>
    obtain ⟨k2, v2⟩ := kv
    by_cases h2 : k2 = k
    · subst h2
      simp [refAssign, refLookup, Ne.symm h]
    · by_cases h3 : k2 = k'
      · subst h3
        simp [refAssign, refLookup, h2]
      · simp [refAssign, refLookup, h2, h3, ih]

theorem getElem?_append_of_some (heap more : Heap) (b : Nat) (obj : Obj)
    (h : heap[b]? = some obj) : (heap ++ more)[b]? = some obj := by
  have hb : b < heap.length := (List.getElem?_eq_some.1 h).1
  rw [List.getElem?_append_left hb]
  exact h

/-- The allocations of `buildValueByPath` leave the objects of the heap as they are. -/
theorem buildValueByPathRef_heap (heap : Heap) (paths : List Str) (val : RVal) (b : Nat)
    (obj : Obj) (h : heap[b]? = some obj) :
    (buildValueByPathRef heap paths val).1[b]? = some obj := by
  have hfold : ∀ (l : List Str) (st : Heap × Option Nat), st.1[b]? = some obj →
      (l.foldl (fun (st : Heap × Option Nat) p =>
        match st.2 with
        | none => (st.1 ++ [Obj.smap [(p, val)]], some st.1.length)
        | some a => (st.1 ++ [Obj.smap [(p, RVal.smapRef a)]], some st.1.length)) st).1[b]? =
        some obj := by
    intro l
    induction l with
    | nil => intro st hst; exact hst
    | cons p rest ih =>
      intro st hst
      rw [List.foldl_cons]
      apply ih
      cases st.2 with
      | none => exact getElem?_append_of_some _ _ _ _ hst
      | some a => exact getElem?_append_of_some _ _ _ _ hst
  unfold buildValueByPathRef
  split
  · exact getElem?_append_of_some _ _ _ _ h
  · simp only
    split
    · exact hfold _ _ h
    · exact getElem?_append_of_some _ _ _ _ (hfold _ _ h)

/-- C19 (as amended): on a store with references, whenever `Set` returns, with or without
an error, every top-level key other than the written one (the whole normalized key on the
literal route, its first segment on the path route) is bound after the call to what it
was bound to before, the same scalar or the same slice or map object, or to nothing if it
was bound to nothing. Unless the entry of the written key was a map (the routes that
merge), every object of the heap other than the backing array of the slice stored under
the written key is after the call what it was before. -/
theorem SetRef_rebinds_one_top_level_key (merge : MergeRef) (c : RConfig) (key : Str)
    (val : RVal) (setByPath : List Bool) (e : Option SetError) (c' : RConfig)
    (h : c.SetRef merge key val setByPath = .returned e c') :
    (∀ k', k' ≠ writtenKey key setByPath → refLookup k' c'.data = refLookup k' c.data) ∧
      (∀ b obj, c.heap[b]? = some obj →
        refLookup (writtenKey key setByPath) c.data ≠ some (.sliceRef b) →
        (∀ a, refLookup (writtenKey key setByPath) c.data ≠ some (.smapRef a)) →
        (∀ a, refLookup (writtenKey key setByPath) c.data ≠ some (.imapRef a)) →
        c'.heap[b]? = some obj) := by
  unfold RConfig.SetRef at h
  simp only at h
  split at h
  · simp only [ROutcome.returned.injEq] at h
    rw [← h.2]
    exact ⟨fun _ _ => rfl, fun _ _ hb _ _ _ => hb⟩
  · split at h
    · simp only [ROutcome.returned.injEq] at h
      rw [← h.2]
      exact ⟨fun _ _ => rfl, fun _ _ hb _ _ _ => hb⟩
    · split at h
      · rename_i hc
        simp only [ROutcome.returned.injEq] at h
        rw [← h.2]
        have hc' : Contains (Trim (TrimSpace key) ".".toList) '.' = false := by simpa using hc
        have hw : writtenKey key setByPath = Trim (TrimSpace key) ".".toList := by
          simp only [writtenKey, hc', Bool.false_and, Bool.false_eq_true, if_false]
        rw [hw]
        exact ⟨fun k' hk => refLookup_refAssign_ne _ _ _ _ hk, fun _ _ hb _ _ _ => hb⟩
      · split at h
        · rename_i hp
          simp only [ROutcome.returned.injEq] at h
          rw [← h.2]
          have hw : writtenKey key setByPath = Trim (TrimSpace key) ".".toList := by
            simp only [writtenKey, hp, Bool.not_true, Bool.and_false, Bool.false_eq_true,
              if_false]
          rw [hw]
          exact ⟨fun k' hk => refLookup_refAssign_ne _ _ _ _ hk, fun _ _ hb _ _ _ => hb⟩
        · rename_i hc hp
          have hc' : Contains (Trim (TrimSpace key) ".".toList) '.' = true := by simpa using hc
          have hp' : pathDisabled setByPath = false := by simpa using hp
          split at h
          · exact absurd h (by simp)
          · rename_i topK paths hs
            have hw : writtenKey key setByPath = topK := by
              simp only [writtenKey, hc', hp', Bool.not_false, Bool.and_self, if_true, hs,
                List.headD_cons]
            rw [hw]
            split at h
            · simp only [ROutcome.returned.injEq] at h
              rw [← h.2]
              exact ⟨fun k' hk => refLookup_refAssign_ne _ _ _ _ hk,
                fun b obj hb _ _ _ => buildValueByPathRef_heap _ _ _ b obj hb⟩
            · rename_i a hl
              refine ⟨?_, fun b obj _ _ _ h4 => absurd hl (h4 a)⟩
              repeat' split at h
              all_goals simp only [ROutcome.returned.injEq, reduceCtorEq] at h
              all_goals first
                | (rw [← h.2]; exact fun k' hk => refLookup_refAssign_ne _ _ _ _ hk)
                | (rw [← h.2]; exact fun _ _ => rfl)
            · rename_i a hl
              refine ⟨?_, fun b obj _ _ h3 _ => absurd hl (h3 a)⟩
              repeat' split at h
              all_goals simp only [ROutcome.returned.injEq, reduceCtorEq] at h
              all_goals first
                | (rw [← h.2]; exact fun k' hk => refLookup_refAssign_ne _ _ _ _ hk)
                | (rw [← h.2]; exact fun _ _ => rfl)
            · rename_i a hl
              have hframe : ∀ (x : Obj) (b : Nat) (obj : Obj), c.heap[b]? = some obj →
                  refLookup topK c.data ≠ some (.sliceRef b) →
                  (c.heap.set a x)[b]? = some obj := by
                intro x b obj hb hne
                have hba : a ≠ b := by
                  rintro rfl
                  exact hne hl
                rw [List.getElem?_set_ne hba]
                exact hb
              repeat' split at h
              all_goals simp only [ROutcome.returned.injEq, reduceCtorEq] at h
              all_goals first
                | (rw [← h.2]
                   exact ⟨fun k' hk => refLookup_refAssign_ne _ _ _ _ hk,
                     fun b obj hb hne _ _ => hframe _ b obj hb hne⟩)
                | (rw [← h.2]
                   exact ⟨fun k' hk => refLookup_refAssign_ne _ _ _ _ hk,
                     fun _ _ hb _ _ _ => hb⟩)
                | (rw [← h.2]
                   exact ⟨fun _ _ => rfl, fun _ _ hb _ _ _ => hb⟩)
            · simp only [ROutcome.returned.injEq] at h
              rw [← h.2]
              exact ⟨fun _ _ => rfl, fun _ _ hb _ _ _ => hb⟩

/-- Witness for C19: the store binds `a` and `b` to two different slices; `Set("a.0", 99)`
writes into the slice of `a`, and `b` keeps its binding and its backing array (the calls
here do not reach the merge, whose parameter is a function that does nothing). -/
theorem SetRef_rebinds_one_top_level_key_witness :
    (RConfig.mk ⟨false⟩ [("a".toList, .sliceRef 0), ("b".toList, .sliceRef 1)]
        [.arr [.scalar (.int 10), .scalar (.int 20)], .arr [.scalar (.int 1)]]).SetRef
        (fun heap typeData _ => (heap, typeData, none)) "a.0".toList (.scalar (.int 99)) [] =
      .returned none ⟨⟨false⟩, [("a".toList, .sliceRef 0), ("b".toList, .sliceRef 1)],
        [.arr [.scalar (.int 99), .scalar (.int 20)], .arr [.scalar (.int 1)]]⟩ ∧
    (∀ k', k' ≠ writtenKey "a.0".toList [] →
      refLookup k' [("a".toList, RVal.sliceRef 0), ("b".toList, .sliceRef 1)] =
        refLookup k' [("a".toList, RVal.sliceRef 0), ("b".toList, .sliceRef 1)]) ∧
    (∀ b obj,
      [Obj.arr [.scalar (.int 10), .scalar (.int 20)], .arr [.scalar (.int 1)]][b]? =
        some obj →
      refLookup (writtenKey "a.0".toList [])
        [("a".toList, RVal.sliceRef 0), ("b".toList, .sliceRef 1)] ≠ some (.sliceRef b) →
      (∀ a, refLookup (writtenKey "a.0".toList [])
        [("a".toList, RVal.sliceRef 0), ("b".toList, .sliceRef 1)] ≠ some (.smapRef a)) →
      (∀ a, refLookup (writtenKey "a.0".toList [])
        [("a".toList, RVal.sliceRef 0), ("b".toList, .sliceRef 1)] ≠ some (.imapRef a)) →
      [Obj.arr [.scalar (.int 99), .scalar (.int 20)], .arr [.scalar (.int 1)]][b]? =
        some obj) :=
  ⟨rfl, SetRef_rebinds_one_top_level_key (fun heap typeData _ => (heap, typeData, none))
    ⟨⟨false⟩, [("a".toList, .sliceRef 0), ("b".toList, .sliceRef 1)],
      [.arr [.scalar (.int 10), .scalar (.int 20)], .arr [.scalar (.int 1)]]⟩
    "a.0".toList (.scalar (.int 99)) [] none
    ⟨⟨false⟩, [("a".toList, .sliceRef 0), ("b".toList, .sliceRef 1)],
      [.arr [.scalar (.int 99), .scalar (.int 20)], .arr [.scalar (.int 1)]]⟩ rfl⟩

/-- Counterexample to C19 as stated: a caller holds the slice `s = [10, 20, 30]` (the
object of address 0) and calls `Set("a", s)`, `Set("b", s)` and `Set("a.0", 99)` on the
empty store. The third call writes the key `a`, not `b`, and yet the sequence stored
under `b`, which is the same slice, is `[10, 20, 30]` before it and `[99, 20, 30]` after
it (the calls do not reach the merge, whose parameter is a function that does
nothing). -/
theorem SetRef_shared_slice_changes_other_entry :
    (RConfig.mk ⟨false⟩ []
        [.arr [.scalar (.int 10), .scalar (.int 20), .scalar (.int 30)]]).SetRef
        (fun heap typeData _ => (heap, typeData, none)) "a".toList (.sliceRef 0) [] =
      .returned none ⟨⟨false⟩, [("a".toList, .sliceRef 0)],
        [.arr [.scalar (.int 10), .scalar (.int 20), .scalar (.int 30)]]⟩ ∧
    (RConfig.mk ⟨false⟩ [("a".toList, .sliceRef 0)]
        [.arr [.scalar (.int 10), .scalar (.int 20), .scalar (.int 30)]]).SetRef
        (fun heap typeData _ => (heap, typeData, none)) "b".toList (.sliceRef 0) [] =
      .returned none ⟨⟨false⟩, [("a".toList, .sliceRef 0), ("b".toList, .sliceRef 0)],
        [.arr [.scalar (.int 10), .scalar (.int 20), .scalar (.int 30)]]⟩ ∧
    (RConfig.mk ⟨false⟩ [("a".toList, .sliceRef 0), ("b".toList, .sliceRef 0)]
        [.arr [.scalar (.int 10), .scalar (.int 20), .scalar (.int 30)]]).SetRef
        (fun heap typeData _ => (heap, typeData, none)) "a.0".toList (.scalar (.int 99)) [] =
      .returned none ⟨⟨false⟩, [("a".toList, .sliceRef 0), ("b".toList, .sliceRef 0)],
        [.arr [.scalar (.int 99), .scalar (.int 20), .scalar (.int 30)]]⟩ ∧
    "b".toList ≠ writtenKey "a.0".toList [] ∧
    (RConfig.mk ⟨false⟩ [("a".toList, .sliceRef 0), ("b".toList, .sliceRef 0)]
        [.arr [.scalar (.int 10), .scalar (.int 20), .scalar (.int 30)]]).elems "b".toList =
      some [.scalar (.int 10), .scalar (.int 20), .scalar (.int 30)] ∧
    (RConfig.mk ⟨false⟩ [("a".toList, .sliceRef 0), ("b".toList, .sliceRef 0)]
        [.arr [.scalar (.int 99), .scalar (.int 20), .scalar (.int 30)]]).elems "b".toList =
      some [.scalar (.int 99), .scalar (.int 20), .scalar (.int 30)] :=
  ⟨rfl, rfl, rfl, by decide, rfl, rfl⟩

end GoConfig
